import Mathlib

/-!
Verification of the record-linkage / merge engine of `cgap_gene_annotation`.

The development shallowly embeds the Python source:
  * `src/cgap_gene_annotation/src/utils.py` (`nested_getter`), and
  * `src/cgap_gene_annotation/src/merge.py` (class `AnnotationMerge`).

Python values exchanged by the engine (JSON-like records) are embedded as
`PyVal`: strings, dicts (insertion-ordered association lists with distinct
keys) and lists.  Python runtime errors that the engine can raise
(`TypeError` from hashing an unhashable value, `ValueError` from tuple
unpacking, `IndexError` from list indexing) are embedded as `Except PyErr`.

Naming: Python attribute names built on the word "annotation" are renamed
(`existing_annotation` → `base_records`, `new_annotation` → `incoming_records`,
`merge_annotations` → `merge_records`, `match_value_to_annotation` →
`match_value_to_records`, `match_annotations` → `match_records`,
`add_merged_annotations` → `add_merged_records`, `join_annotations` →
`join_records`, attribute `prefix` → `pfx`); everything else keeps the
source's names.
-/

/-- A Python value as handled by the merge engine: a scalar string, a dict
(modelled as an insertion-ordered association list with distinct keys), or a
list. -/
inductive PyVal where
  | str : String → PyVal
  | obj : List (String × PyVal) → PyVal
  | arr : List PyVal → PyVal

mutual

def PyVal.decEq : (a b : PyVal) → Decidable (a = b)
  | .str a, .str b =>
    if h : a = b then .isTrue (by rw [h]) else .isFalse (by simp [h])
  | .str _, .obj _ => .isFalse (fun h => PyVal.noConfusion h)
  | .str _, .arr _ => .isFalse (fun h => PyVal.noConfusion h)
  | .obj _, .str _ => .isFalse (fun h => PyVal.noConfusion h)
  | .obj a, .obj b =>
    match PyVal.decEqFields a b with
    | .isTrue h => .isTrue (by rw [h])
    | .isFalse h => .isFalse (fun hc => h (PyVal.obj.inj hc))
  | .obj _, .arr _ => .isFalse (fun h => PyVal.noConfusion h)
  | .arr _, .str _ => .isFalse (fun h => PyVal.noConfusion h)
  | .arr _, .obj _ => .isFalse (fun h => PyVal.noConfusion h)
  | .arr a, .arr b =>
    match PyVal.decEqList a b with
    | .isTrue h => .isTrue (by rw [h])
    | .isFalse h => .isFalse (fun hc => h (PyVal.arr.inj hc))

def PyVal.decEqFields : (a b : List (String × PyVal)) → Decidable (a = b)
  | [], [] => .isTrue rfl
  | [], _ :: _ => .isFalse (fun h => List.noConfusion h)
  | _ :: _, [] => .isFalse (fun h => List.noConfusion h)
  | (k, v) :: xs, (k', v') :: ys =>
    if hk : k = k' then
      match PyVal.decEq v v', PyVal.decEqFields xs ys with
      | .isTrue hv, .isTrue ht => .isTrue (by rw [hk, hv, ht])
      | .isFalse hv, _ =>
        .isFalse (fun hc => hv (congrArg Prod.snd (List.cons.inj hc).1))
      | _, .isFalse ht => .isFalse (fun hc => ht (List.cons.inj hc).2)
    else .isFalse (fun hc => hk (congrArg Prod.fst (List.cons.inj hc).1))

def PyVal.decEqList : (a b : List PyVal) → Decidable (a = b)
  | [], [] => .isTrue rfl
  | [], _ :: _ => .isFalse (fun h => List.noConfusion h)
  | _ :: _, [] => .isFalse (fun h => List.noConfusion h)
  | x :: xs, y :: ys =>
    match PyVal.decEq x y, PyVal.decEqList xs ys with
    | .isTrue hv, .isTrue ht => .isTrue (by rw [hv, ht])
    | .isFalse hv, _ => .isFalse (fun hc => hv (List.cons.inj hc).1)
    | _, .isFalse ht => .isFalse (fun hc => ht (List.cons.inj hc).2)

end

instance : DecidableEq PyVal := PyVal.decEq

instance {ε α : Type} [DecidableEq ε] [DecidableEq α] : DecidableEq (Except ε α) :=
  fun x y =>
    match x, y with
    | .ok a, .ok b =>
      if h : a = b then .isTrue (by rw [h]) else .isFalse (by simp [h])
    | .error a, .error b =>
      if h : a = b then .isTrue (by rw [h]) else .isFalse (by simp [h])
    | .ok _, .error _ => .isFalse (by simp)
    | .error _, .ok _ => .isFalse (by simp)

/-- Python runtime errors the embedded code can raise: `TypeError` (hashing an
unhashable value), `ValueError` (tuple unpacking), `IndexError` (list index out
of range). -/
inductive PyErr where
  | typeErr : PyErr
  | valErr : PyErr
  | indexErr : PyErr
deriving DecidableEq

/-- Python truthiness of a value: empty strings, dicts and lists are falsy. -/
def pyTruthy : PyVal → Bool
  | .str s => !s.isEmpty
  | .obj l => !l.isEmpty
  | .arr l => !l.isEmpty

/-- Python `dict.get`: first-match lookup in the association list (dict keys
are distinct, so first match is the only match). -/
def dget : List (String × PyVal) → String → Option PyVal
  | [], _ => none
  | (k, v) :: rest, f => if k = f then some v else dget rest f

/-- The extension performed by Python `result += sub_result` in
`nested_getter`: a list contributes its elements, a dict contributes its keys,
a string contributes its characters (the string case is unreachable because
recursive calls never return a bare string). -/
def pyElems : PyVal → List PyVal
  | .arr l => l
  | .obj l => l.map (fun p => PyVal.str p.1)
  | .str s => s.data.map (fun c => PyVal.str (String.mk [c]))

/-- Python `list(set(result))`: raises `TypeError` if any element is
unhashable (a dict or a list); otherwise removes duplicates (iteration order
of a Python set is unspecified, so any deduplication serves; we use
`List.dedup`). -/
def py_list_set (l : List PyVal) : Except PyErr (List PyVal) :=
  if l.all (fun v => match v with | .str _ => true | _ => false) then
    .ok l.dedup
  else
    .error .typeErr

/-- Final step of `nested_getter` (with the default `string_return=False`):
`if isinstance(result, str): result = [result]`. -/
def wrapStr : PyVal → PyVal
  | .str s => .arr [.str s]
  | v => v

/-- `FIELD_SEPARATOR = "."` in `utils.py`. -/
def FIELD_SEPARATOR : String := "."

/-- Python `FIELD_SEPARATOR in field_to_get`. -/
def containsSep (s : String) : Bool := s.data.contains '.'

/-- Character-level worker for `pySplitDot`. -/
def splitDotChars : List Char → List (List Char)
  | [] => [[]]
  | c :: rest =>
    match splitDotChars rest with
    | [] => []
    | p :: ps => if c = '.' then [] :: p :: ps else (c :: p) :: ps

/-- Python `field_to_get.split(FIELD_SEPARATOR)`: split on every dot, keeping
empty parts (`"".split(".") == [""]`). -/
def pySplitDot (s : String) : List String :=
  (splitDotChars s.data).map (fun l => String.mk l)

/-- Python `FIELD_SEPARATOR.join(field_terms)`. -/
def joinDot : List String → String
  | [] => ""
  | [x] => x
  | x :: xs => x ++ FIELD_SEPARATOR ++ joinDot xs

/-- Python `str.strip()`: drop leading and trailing whitespace. -/
def pyStrip (s : String) : String :=
  String.mk
    (((s.data.dropWhile Char.isWhitespace).reverse.dropWhile Char.isWhitespace).reverse)

mutual

/-- `utils.nested_getter(item, field_to_get)` with the default
`string_return=False`, translated branch for branch:

* a truthy list recurses into each element, accumulates with `+=`, and
  passes the result through `list(set(...))` (which `TypeError`s on
  unhashable elements);
* a dict first tries the literal key (`item.get(field_to_get)`); if that is
  absent (`None`) and the field contains the separator, it splits off the
  first segment and tries that (handled by `ngSplit`, which inlines the
  lookup); a truthy hit continues on the remaining path, a falsy hit is
  returned as is; a miss yields `[]`;
* anything else (a string, or a falsy list) skips both branches and returns
  the initial `result = []`;
* finally a bare string result is wrapped into a one-element list. -/
def nested_getter : PyVal → String → Except PyErr PyVal
  | .arr l, field =>
    if l.isEmpty then .ok (.arr [])
    else do
      let parts ← ngList l field
      let res ← py_list_set parts
      .ok (.arr res)
  | .obj l, field =>
    match dget l field with
    | some v =>
      -- literal key present: if truthy, `field_to_get` becomes "" and no
      -- recursion happens; if falsy, neither the split nor the recursion
      -- fires.  Either way the stored value is returned (wrapped if a str).
      .ok (wrapStr v)
    | none =>
      if containsSep field then
        ngSplit l ((pySplitDot field).headD "") (joinDot (pySplitDot field).tail)
      else .ok (.arr [])
  | .str _, _ => .ok (.arr [])

/-- The split-field branch of `nested_getter` on a dict:
`result = item.get(first_term)` (the lookup is inlined as structural
recursion over the association list), then, for a truthy hit,
`field_to_get` becomes the joined remaining terms and
`if result and field_to_get:` recurses; a falsy hit or an exhausted
remaining path returns the hit as is; a miss gives `result = None`,
turned into `[]`. -/
def ngSplit : List (String × PyVal) → String → String → Except PyErr PyVal
  | [], _, _ => .ok (.arr [])
  | (k, v) :: tl, first_term, rest =>
    if k = first_term then
      if pyTruthy v then
        if rest.isEmpty then .ok (wrapStr v)
        else nested_getter v rest
      else .ok (wrapStr v)
    else ngSplit tl first_term rest

/-- The `for sub_item in item: result += nested_getter(sub_item, field_to_get)`
loop of `nested_getter`, returning the accumulated `result` list. -/
def ngList : List PyVal → String → Except PyErr (List PyVal)
  | [], _ => .ok []
  | x :: xs, field => do
    let r ← nested_getter x field
    let rs ← ngList xs field
    .ok (pyElems r ++ rs)

end

/-! ## Python sets of annotation indices

A Python `set` of indices is embedded as a strictly sorted `List Nat` (the
canonical representative); iteration order of a Python set is unspecified, so
the ascending order is as good as any. -/

/-- Insert an index into a sorted index set. -/
def insSorted (n : Nat) : List Nat → List Nat
  | [] => [n]
  | m :: rest =>
    if n < m then n :: m :: rest
    else if n = m then m :: rest
    else m :: insSorted n rest

/-- Python `set.update` / set union. -/
def setUnion : List Nat → List Nat → List Nat
  | [], b => b
  | x :: xs, b => insSorted x (setUnion xs b)

/-- Python `set.intersection`. -/
def setInter (a b : List Nat) : List Nat :=
  a.filter (fun n => b.contains n)

/-- Python `set.difference`. -/
def setDiff (a b : List Nat) : List Nat :=
  a.filter (fun n => !b.contains n)

/-! ## The merge engine (`merge.py`, class `AnnotationMerge`) -/

/-- A Python `dict` with annotation indices as keys and `set`s of annotation
indices as values, modelled as an insertion-ordered association list with
distinct keys. -/
abbrev EdgeDict := List (Nat × List Nat)

/-- A value map: field value → set of annotation indices holding it. -/
abbrev ValDict := List (String × List Nat)

/-- Python `dict.get` for index/value maps. -/
def dictGet {κ : Type} [DecidableEq κ] :
    List (κ × List Nat) → κ → Option (List Nat)
  | [], _ => none
  | (k, v) :: rest, key => if k = key then some v else dictGet rest key

/-- Python `dict[key] = value`: replace in place, else append. -/
def dictSet {κ : Type} [DecidableEq κ] :
    List (κ × List Nat) → κ → List Nat → List (κ × List Nat)
  | [], key, val => [(key, val)]
  | (k, v) :: rest, key, val =>
    if k = key then (k, val) :: rest else (k, v) :: dictSet rest key val

/-- Python `del dict[key]`. -/
def dictDel {κ : Type} [DecidableEq κ] :
    List (κ × List Nat) → κ → List (κ × List Nat)
  | [], _ => []
  | (k, v) :: rest, key => if k = key then rest else (k, v) :: dictDel rest key

/-- `AnnotationMerge.add_values_to_sets(list_of_keys, values_to_add,
dictionary)`: if `values_to_add` is truthy, union it into each key's
existing (truthy) set, or start a fresh set. -/
def add_values_to_sets {κ : Type} [DecidableEq κ] (list_of_keys : List κ)
    (values_to_add : List Nat) (dictionary : List (κ × List Nat)) :
    List (κ × List Nat) :=
  if values_to_add.isEmpty then dictionary
  else
    list_of_keys.foldl
      (fun d item =>
        match dictGet d item with
        | some s =>
          if !s.isEmpty then dictSet d item (setUnion s values_to_add)
          else dictSet d item values_to_add
        | none => dictSet d item values_to_add)
      dictionary

/-- Iterating a Python value as `list_of_keys` of `add_values_to_sets` and
using its elements as dict keys (as `match_value_to_annotation` does with a
`nested_getter` result): a list yields its elements, which must be hashable
— a dict or list element raises `TypeError` at `dictionary.get(item)`; a
dict yields its (string) keys; a string yields its characters. -/
def py_iter_keys : PyVal → Except PyErr (List String)
  | .arr l => l.mapM (fun v => match v with | .str s => .ok s | _ => .error .typeErr)
  | .obj l => .ok (l.map (fun p => p.1))
  | .str s => .ok (s.data.map (fun c => String.mk [c]))

/-- The per-index loop of `match_value_to_annotation`: look up the field in
the record at each index and record the index under every resulting value.
(Indices produced by the engine are always in range; out-of-range access
would be a Python `IndexError` and never occurs, so a default record is
supplied to keep the function total.) -/
def match_value_loop (ann : List PyVal) (field : String) :
    List Nat → ValDict → Except PyErr ValDict
  | [], acc => .ok acc
  | idx :: rest, acc => do
    let item_value ← nested_getter (ann.getD idx (.obj [])) field
    let keys ← py_iter_keys item_value
    match_value_loop ann field rest (add_values_to_sets keys [idx] acc)

/-- `AnnotationMerge.match_value_to_annotation(annotation, field, indices)`
(renamed `match_value_to_records`): map field values to the indices of the
records containing them.  A falsy `field` yields the empty map; falsy
`indices` (`None` or an empty list) iterates the whole collection. -/
def match_value_to_records (ann : List PyVal) (field : String)
    (indices : Option (List Nat)) : Except PyErr ValDict :=
  if field.isEmpty then .ok []
  else
    match indices with
    | some (i :: is) => match_value_loop ann field (i :: is) []
    | _ => match_value_loop ann field (List.range ann.length) []

/-- The loop of `match_annotations` over the existing value map: for each
value with a truthy entry in the new value map, cross-link the index sets in
both directions. -/
def match_records_loop (nvm : ValDict) :
    ValDict → EdgeDict → EdgeDict → EdgeDict × EdgeDict
  | [], existing_to_new, new_to_existing => (existing_to_new, new_to_existing)
  | (key, eset) :: rest, existing_to_new, new_to_existing =>
    match dictGet nvm key with
    | some nset =>
      if !nset.isEmpty then
        match_records_loop nvm rest
          (add_values_to_sets eset nset existing_to_new)
          (add_values_to_sets nset eset new_to_existing)
      else match_records_loop nvm rest existing_to_new new_to_existing
    | none => match_records_loop nvm rest existing_to_new new_to_existing

/-- `AnnotationMerge.match_annotations(existing_value_map, new_value_map)`
(renamed `match_records`): build both directed match tables. -/
def match_records (evm nvm : ValDict) : EdgeDict × EdgeDict :=
  match_records_loop nvm evm [] []

/-- `AnnotationMerge.get_merge_fields(merge_field_list)`: the caller pops the
first pair off the list (Python `pop(0)` is the pattern match at each call
site); this strips each part and performs the two-element unpack
`existing_key, new_key = ...` — any other length raises `ValueError`. -/
def get_merge_fields (merge_fields : List String) : Except PyErr (String × String) :=
  match merge_fields.map pyStrip with
  | [existing_key, new_key] => .ok (existing_key, new_key)
  | _ => .error .valErr

/-- The attributes of `AnnotationMerge` (`existing_annotation` and
`new_annotation` are rendered `base_records` and `incoming_records`,
attribute `prefix` is rendered `pfx`; all other names are kept). -/
structure MState where
  base_records : List PyVal
  incoming_records : List PyVal
  pfx : String
  primary_merge_fields : List (List String)
  secondary_merge_fields : List (List String)
  existing_to_new_unique : Bool
  new_to_existing_unique : Bool
  existing_to_new_edges : List EdgeDict
  new_to_existing_edges : List EdgeDict
deriving DecidableEq

/-- `AnnotationMerge.join_annotations(merge_fields)` (renamed
`join_records`), after the caller popped the first field pair: restrict to
the keys of the first edge tables when they exist, build both value maps,
match them, and append the two new match tables. -/
def join_records (st : MState) (merge_fields : List String) : Except PyErr MState := do
  let keys ← get_merge_fields merge_fields
  let existing_indices : Option (List Nat) :=
    match st.existing_to_new_edges with
    | e0 :: _ => some (e0.map (fun p => p.1))
    | [] => none
  let new_indices : Option (List Nat) :=
    match st.existing_to_new_edges with
    | _ :: _ => some ((st.new_to_existing_edges.headD []).map (fun p => p.1))
    | [] => none
  let existing_value_map ← match_value_to_records st.base_records keys.1 existing_indices
  let new_value_map ← match_value_to_records st.incoming_records keys.2 new_indices
  let tables := match_records existing_value_map new_value_map
  .ok { st with
        existing_to_new_edges := st.existing_to_new_edges ++ [tables.1],
        new_to_existing_edges := st.new_to_existing_edges ++ [tables.2] }

/-- One folding step of `AnnotationMerge.intersect_edges`: per key of the
first table, keep the intersection with the second table's set when the key
is present there and the intersection is non-empty; delete the key
otherwise. -/
def intersect_two (edge_list_1 edge_list_2 : EdgeDict) : EdgeDict :=
  edge_list_1.filterMap (fun p =>
    match dictGet edge_list_2 p.1 with
    | some value_2 =>
      if (setInter p.2 value_2).isEmpty then none
      else some (p.1, setInter p.2 value_2)
    | none => none)

/-- The `while len(list_of_edges) > 1` fold of `intersect_edges`. -/
def intersect_fold : EdgeDict → List EdgeDict → EdgeDict
  | acc, [] => acc
  | acc, d :: rest => intersect_fold (intersect_two acc d) rest

/-- `AnnotationMerge.intersect_edges(list_of_edges)`: fold the list of match
tables pairwise down to at most one table. -/
def intersect_edges : List EdgeDict → List EdgeDict
  | [] => []
  | d1 :: rest => [intersect_fold d1 rest]

/-- `AnnotationMerge.prune_edges(all_edges, edges_to_prune)`: remove the
pruned values key by key; a key whose set empties is deleted, a key whose
current set is falsy is left untouched. -/
def prune_edges : EdgeDict → EdgeDict → EdgeDict
  | all_edges, [] => all_edges
  | all_edges, (key, value) :: rest =>
    prune_edges
      (match dictGet all_edges key with
        | some edge =>
          if edge.isEmpty then all_edges
          else
            if (setDiff edge value).isEmpty then dictDel all_edges key
            else dictSet all_edges key (setDiff edge value)
        | none => all_edges)
      rest

/-- One `for key, value in ...items(): if len(value) > 1:` collection loop of
`prune_to_unique_edges`, accumulating into `(pruned_own, pruned_other)`:
`add_values_to_sets([key], value, pruned_own)` and
`add_values_to_sets(value, [key], pruned_other)`. -/
def collect_pruned : EdgeDict → EdgeDict × EdgeDict → EdgeDict × EdgeDict
  | [], acc => acc
  | (key, value) :: rest, (pruned_own, pruned_other) =>
    if 1 < value.length then
      collect_pruned rest
        (add_values_to_sets [key] value pruned_own,
         add_values_to_sets value [key] pruned_other)
    else collect_pruned rest (pruned_own, pruned_other)

/-- `AnnotationMerge.prune_to_unique_edges`: collect the constraint-violating
edges of each direction whose uniqueness flag is set, and remove them from
both current tables (the Python method edits the tables in place).  Returns
`((pruned_new_to_existing, pruned_existing_to_new), (existing-head after
pruning, new-head after pruning))`. -/
def prune_to_unique_edges (st : MState) :
    (EdgeDict × EdgeDict) × (EdgeDict × EdgeDict) :=
  let existing_to_new := st.existing_to_new_edges.headD []
  let new_to_existing := st.new_to_existing_edges.headD []
  let p1 : EdgeDict × EdgeDict :=
    if st.existing_to_new_unique then collect_pruned existing_to_new ([], [])
    else ([], [])
  let p2 : EdgeDict × EdgeDict :=
    if st.new_to_existing_unique then collect_pruned new_to_existing (p1.2, p1.1)
    else (p1.2, p1.1)
  ((p2.1, p2.2),
   (prune_edges existing_to_new p2.2, prune_edges new_to_existing p2.1))

/-- Python `existing_annotation[self.prefix] = value` on a record: dict key
assignment, replacing in place or appending. -/
def objAssign : List (String × PyVal) → String → PyVal → List (String × PyVal)
  | [], key, v => [(key, v)]
  | (k, w) :: rest, key, v =>
    if k = key then (k, v) :: rest else (k, w) :: objAssign rest key v

/-- The merge loop of `add_merged_annotations`: for each applied edge,
assign the prefix key of the base record at `existing_node` a fresh list
(`existing_annotation[self.prefix] = []`) and append the incoming record at
each matched node; key assignment on a non-dict record raises `TypeError`. -/
def apply_edges (incoming : List PyVal) (pfx : String) :
    EdgeDict → List PyVal → Except PyErr (List PyVal)
  | [], base => .ok base
  | (existing_node, new_nodes) :: rest, base => do
    let r1 ←
      match base.getD existing_node (.obj []) with
      | .obj l =>
        Except.ok (PyVal.obj (objAssign l pfx
          (.arr (new_nodes.map (fun n => incoming.getD n (.obj []))))))
      | _ => .error .typeErr
    apply_edges incoming pfx rest (base.set existing_node r1)

/-- `AnnotationMerge.add_merged_annotations` (renamed `add_merged_records`):
prune to the mapping constraints, embed every surviving match of the
(pruned) first existing-to-new table into the base records, and stage the
pruned tables — when non-empty — as the edge tables for the next narrowing
round.  Also returns the applied match table (whose length is the logged
merge count). -/
def add_merged_records (st : MState) : Except PyErr (MState × EdgeDict) := do
  let pr := prune_to_unique_edges st
  let applied := pr.2.1
  let base1 ← apply_edges st.incoming_records st.pfx applied st.base_records
  .ok ({ st with
         base_records := base1,
         existing_to_new_edges :=
           if pr.1.2.isEmpty then [] else [pr.1.2],
         new_to_existing_edges :=
           if pr.1.1.isEmpty then [] else [pr.1.1] },
       applied)

/-- The `while self.primary_merge_fields:` loop of `merge_annotations`: the
pattern match is the `pop(0)` of `get_merge_fields`, performed before the
join (so the attribute already holds the remaining pairs during the join). -/
def primary_loop : MState → List (List String) → Except PyErr MState
  | st, [] => .ok st
  | st, pair :: rest => do
    let st1 ← join_records { st with primary_merge_fields := rest } pair
    primary_loop st1 rest

/-- The `while self.existing_to_new_edges and self.secondary_merge_fields:`
loop of `merge_annotations`: pop one secondary pair, join on it, intersect
both edge-table lists, apply; collect each round's applied table. -/
def secondary_loop : MState → List (List String) → List EdgeDict →
    Except PyErr (MState × List EdgeDict)
  | st, [], applied => .ok (st, applied)
  | st, pair :: rest, applied =>
    if st.existing_to_new_edges.isEmpty then .ok (st, applied)
    else do
      let st1 ← join_records { st with secondary_merge_fields := rest } pair
      let st2 := { st1 with
                   existing_to_new_edges := intersect_edges st1.existing_to_new_edges,
                   new_to_existing_edges := intersect_edges st1.new_to_existing_edges }
      let res ← add_merged_records st2
      secondary_loop res.1 rest (applied ++ [res.2])

/-- `AnnotationMerge.merge_annotations` (renamed `merge_records`): join on
every primary pair, intersect, apply; then secondary narrowing rounds while
unresolved edges and secondary pairs remain; report the unresolved count
(Python logs `len(self.existing_to_new_edges[0])` only when the edge list is
truthy — `none` means no unresolved report) and clear the incoming
collection.  Returns the final state, the applied match table of every
round, and the unresolved report. -/
def merge_records (st : MState) :
    Except PyErr (MState × List EdgeDict × Option Nat) := do
  let st1 ← primary_loop st st.primary_merge_fields
  let st2 := { st1 with
               existing_to_new_edges := intersect_edges st1.existing_to_new_edges,
               new_to_existing_edges := intersect_edges st1.new_to_existing_edges }
  let res ← add_merged_records st2
  let res2 ← secondary_loop res.1 res.1.secondary_merge_fields [res.2]
  let unresolved : Option Nat :=
    match res2.1.existing_to_new_edges with
    | e0 :: _ => some e0.length
    | [] => none
  .ok ({ res2.1 with incoming_records := [] }, res2.2, unresolved)

/-- The merge configuration dict: recognized keys `primary_fields`,
`secondary_fields` and `type` (constants `MERGE_PRIMARY_FIELDS`,
`MERGE_SECONDARY_FIELDS`, `MERGE_CHOICE`); an absent key is `none`. -/
structure MergeInfo where
  primary_fields : Option (List (List String))
  secondary_fields : Option (List (List String))
  type : Option (List String)

/-- `constants.MERGE_CHOICE_ONE`. -/
def MERGE_CHOICE_ONE : String := "one"

/-- `constants.MERGE_CHOICE_MANY`. -/
def MERGE_CHOICE_MANY : String := "many"

/-- The `for idx, parameter in enumerate(merge_type):` loop of
`convert_merge_type_to_bool`: `result[idx] = True` for each parameter equal
to `"one"` — the assignment raises `IndexError` at an index past the end of
`result`. -/
def convert_loop : List String → Nat → List Bool → Except PyErr (List Bool)
  | [], _, result => .ok result
  | parameter :: rest, idx, result =>
    if parameter = MERGE_CHOICE_ONE then
      if idx < result.length then convert_loop rest (idx + 1) (result.set idx true)
      else .error .indexErr
    else convert_loop rest (idx + 1) result

/-- `AnnotationMerge.convert_merge_type_to_bool(merge_type)`: start from
`result = [False, False]` and run the enumeration loop. -/
def convert_merge_type_to_bool (merge_type : List String) :
    Except PyErr (List Bool) :=
  convert_loop merge_type 0 [false, false]

/-- `AnnotationMerge.parse_merge_info(merge_info)`: defaults for absent keys
(`[]`, `[]`, `("many", "many")`), then the two-element unpack
`new_to_existing_unique, existing_to_new_unique = ...`; returns
`(primary, secondary, existing_to_new_unique, new_to_existing_unique)`. -/
def parse_merge_info (merge_info : MergeInfo) :
    Except PyErr (List (List String) × List (List String) × Bool × Bool) := do
  let primary_merge_fields := merge_info.primary_fields.getD []
  let secondary_merge_fields := merge_info.secondary_fields.getD []
  let bools ← convert_merge_type_to_bool
    (merge_info.type.getD [MERGE_CHOICE_MANY, MERGE_CHOICE_MANY])
  match bools with
  | [new_to_existing_unique, existing_to_new_unique] =>
    .ok (primary_merge_fields, secondary_merge_fields,
         existing_to_new_unique, new_to_existing_unique)
  | _ => .error .valErr

/-- `AnnotationMerge.__init__(existing_annotation, new_annotation, prefix,
merge_info)`: parse the merge parameters and set the attributes.  The parsed
field lists alias the caller's configuration lists (Python `dict.get`
returns the stored object), so attribute mutation is mutation of the
caller's configuration. -/
def mkState (base incoming : List PyVal) (pfx : String)
    (merge_info : MergeInfo) : Except PyErr MState := do
  let parsed ← parse_merge_info merge_info
  .ok { base_records := base, incoming_records := incoming, pfx := pfx,
        primary_merge_fields := parsed.1,
        secondary_merge_fields := parsed.2.1,
        existing_to_new_unique := parsed.2.2.1,
        new_to_existing_unique := parsed.2.2.2,
        existing_to_new_edges := [], new_to_existing_edges := [] }

/-- One full merge call: construct the `AnnotationMerge` object and run
`merge_annotations()`. -/
def merge_call (base incoming : List PyVal) (pfx : String)
    (merge_info : MergeInfo) : Except PyErr (MState × List EdgeDict × Option Nat) := do
  let st ← mkState base incoming pfx merge_info
  merge_records st

/-! ## Derived notions used to state the verified properties -/

mutual

/-- `missesB item field` holds when the field path is missing from the
record: no branch of `nested_getter`'s resolution finds a (present) key —
the literal key is absent and, along the split path, either the first
segment is absent or the truthy hit recursively misses the remaining path.
Strings (scalars) trivially miss; a list misses when every element does. -/
def missesB : PyVal → String → Bool
  | .str _, _ => true
  | .arr l, field => missesList l field
  | .obj l, field =>
    (dget l field).isNone &&
    (if containsSep field then
      missesSplit l ((pySplitDot field).headD "") (joinDot (pySplitDot field).tail)
     else true)

/-- Split-path arm of `missesB`: the first segment is absent, or its truthy
hit misses the non-empty remaining path. -/
def missesSplit : List (String × PyVal) → String → String → Bool
  | [], _, _ => true
  | (k, v) :: tl, first_term, rest =>
    if k = first_term then
      pyTruthy v && !rest.isEmpty && missesB v rest
    else missesSplit tl first_term rest

/-- List arm of `missesB`. -/
def missesList : List PyVal → String → Bool
  | [], _ => true
  | x :: xs, field => missesB x field && missesList xs field

end

/-- The leaf values under which the engine indexes a record on a field: the
strings obtained by iterating the `nested_getter` result as
`match_value_to_annotation` does (empty if either step raises). -/
def leafValues (item : PyVal) (field : String) : List String :=
  match nested_getter item field with
  | .ok v =>
    match py_iter_keys v with
    | .ok keys => keys
    | .error _ => []
  | .error _ => []

/-- An edge `(e, n)` recorded in a match table. -/
def mem_edgeB (d : EdgeDict) (e n : Nat) : Bool :=
  match dictGet d e with
  | some s => s.contains n
  | none => false

/-- An edge `(e, n)` applied in some round of a merge run (`log` collects
each round's applied match table). -/
def pairAppliedB (log : List EdgeDict) (e n : Nat) : Bool :=
  log.any (fun d => mem_edgeB d e n)

/-- Membership of `x` in the set stored under key `k` of an index/value
dict. -/
def memDictB {κ : Type} [DecidableEq κ] (d : List (κ × List Nat)) (k : κ) (x : Nat) :
    Bool :=
  match dictGet d k with
  | some s => s.contains x
  | none => false

/-- The indices actually iterated by `match_value_to_records` for a given
`indices` argument: a truthy list is used as is, `None` or an empty list
iterates the whole collection. -/
def eff_indices (ann : List PyVal) : Option (List Nat) → List Nat
  | some (i :: is) => i :: is
  | _ => List.range ann.length

/-- The pair of match tables one `join_annotations` call appends, as a
function of the index restrictions. -/
def joined_tables (base incoming : List PyVal) (eIdx nIdx : Option (List Nat))
    (pair : List String) : Except PyErr (EdgeDict × EdgeDict) := do
  let keys ← get_merge_fields pair
  let evm ← match_value_to_records base keys.1 eIdx
  let nvm ← match_value_to_records incoming keys.2 nIdx
  .ok (match_records evm nvm)

/-- Two match tables are mirror images: `(e, n)` is recorded in one exactly
when `(n, e)` is recorded in the other. -/
def isMirror (P Q : EdgeDict) : Prop :=
  ∀ e n, memDictB P e n = memDictB Q n e

/-- The dict invariant: keys are distinct. -/
def keysNodup {κ : Type} (d : List (κ × List Nat)) : Prop :=
  (d.map Prod.fst).Nodup

/-- The dict invariant: every stored set is non-empty (Python never stores
an empty set). -/
def valuesNE {κ : Type} (d : List (κ × List Nat)) : Prop :=
  ∀ p ∈ d, p.2 ≠ ([] : List Nat)

/-- A well-formed pair of opposite-direction match tables: mirror images
with distinct keys and non-empty stored sets on both sides. -/
def tableR (P Q : EdgeDict) : Prop :=
  isMirror P Q ∧ (keysNodup P ∧ valuesNE P) ∧ (keysNodup Q ∧ valuesNE Q)

/-- The invariant the orchestration maintains on the two edge-table lists:
equal length and pointwise well-formed mirror pairs. -/
def tablesWF (st : MState) : Prop :=
  List.Forall₂ tableR st.existing_to_new_edges st.new_to_existing_edges

/-! ## Basic inversion lemmas -/

theorem bind_eq_ok {ε α β : Type} {x : Except ε α} {f : α → Except ε β} {b : β} :
    x.bind f = .ok b ↔ ∃ a, x = .ok a ∧ f a = .ok b := by
  cases x <;> simp [Except.bind]

theorem bind_eq_ok' {ε α β : Type} {x : Except ε α} {f : α → Except ε β} {b : β} :
    (x >>= f) = .ok b ↔ ∃ a, x = .ok a ∧ f a = .ok b := by
  cases x <;> simp [Bind.bind, Except.bind]

theorem py_list_set_ok {l r : List PyVal} (h : py_list_set l = .ok r) :
    r = l.dedup := by
  unfold py_list_set at h
  split at h
  · exact (Except.ok.inj h).symm
  · exact absurd h (by simp)

/-! ## C7: deduplication of leaf value sets -/

/-- C7 (counterexample): the claim "no scalar appears more than once in the
returned leaf value set" fails: a record whose field directly holds the list
`["x", "x"]` resolves to `["x", "x"]` with "x" twice — deduplication happens
only on list fan-out, not on a directly retrieved list value. -/
theorem C7_dedup_counterexample :
    nested_getter (.obj [("a", .arr [.str "x", .str "x"])]) "a"
      = .ok (.arr [.str "x", .str "x"]) ∧
    ¬ ([PyVal.str "x", PyVal.str "x"].Nodup) := by
  constructor
  · decide
  · decide

/-- C7 (amended): when resolution fans out across a list, the result is
deduplicated: resolving any (possibly empty) list value yields a list with
no duplicates. -/
theorem C7_fanout_dedup (l : List PyVal) (field : String) (v : PyVal)
    (h : nested_getter (.arr l) field = .ok v) :
    ∃ res, v = .arr res ∧ res.Nodup := by
  cases l with
  | nil =>
    refine ⟨[], ?_, List.nodup_nil⟩
    simp [nested_getter] at h
    exact h.symm
  | cons x xs =>
    rw [show nested_getter (.arr (x :: xs)) field
        = (do
            let parts ← ngList (x :: xs) field
            let res ← py_list_set parts
            .ok (.arr res)) by simp [nested_getter]] at h
    rw [bind_eq_ok'] at h
    obtain ⟨parts, _, h⟩ := h
    rw [bind_eq_ok'] at h
    obtain ⟨res, hres, h⟩ := h
    refine ⟨res, ?_, ?_⟩
    · simpa using h.symm
    · rw [py_list_set_ok hres]
      exact List.nodup_dedup parts

/-- C7 witness for the amended theorem. -/
theorem C7_fanout_dedup_witness :
    ∃ res, PyVal.arr [.str "x"] = .arr res ∧ res.Nodup :=
  C7_fanout_dedup [.obj [("a", .str "x")]] "a" (.arr [.str "x"]) (by decide)

/-! ## C8: literal-key precedence over nested interpretation -/

/-- C8: if the literal, undotted field string is present as a key of the
record, resolution returns that key's value (a bare string wrapped into a
one-element list), regardless of any nested interpretation of the dotted
path — the split branch is never reached. -/
theorem C8_direct_key_precedence (l : List (String × PyVal)) (field : String)
    (v : PyVal) (h : dget l field = some v) :
    nested_getter (.obj l) field = .ok (wrapStr v) := by
  simp [nested_getter, h]

/-- C8 witness: `{"a.b": "direct", "a": {"b": "nested"}}` resolved on
`"a.b"` returns `["direct"]`, although the nested interpretation would also
resolve. -/
theorem C8_direct_key_precedence_witness :
    dget [("a.b", .str "direct"), ("a", .obj [("b", .str "nested")])] "a.b"
      = some (.str "direct") ∧
    nested_getter (.obj [("a.b", .str "direct"), ("a", .obj [("b", .str "nested")])])
      "a.b" = .ok (wrapStr (.str "direct")) :=
  ⟨by decide, C8_direct_key_precedence _ _ _ (by decide)⟩

/-! ## C9: missing keys and error propagation -/

mutual

theorem missesB_sound : ∀ (item : PyVal) (field : String),
    missesB item field = true → nested_getter item field = .ok (.arr [])
  | .str _, _ => by intro h; simp [nested_getter]
  | .obj l, field => by
    intro h
    simp only [missesB, Bool.and_eq_true, Option.isNone_iff_eq_none] at h
    obtain ⟨hnone, hsplit⟩ := h
    simp only [nested_getter, hnone]
    by_cases hc : containsSep field = true
    · simp only [hc, if_true]
      simp only [hc, if_true] at hsplit
      exact missesSplit_sound l _ _ hsplit
    · simp [hc]
  | .arr l, field => by
    intro h
    simp only [missesB] at h
    cases l with
    | nil => simp [nested_getter]
    | cons x xs =>
      have hlist := missesList_sound (x :: xs) field h
      simp only [nested_getter, List.isEmpty_cons, Bool.false_eq_true,
        if_false, hlist]
      simp [Bind.bind, Except.bind, py_list_set, List.dedup]

theorem missesSplit_sound : ∀ (l : List (String × PyVal)) (first_term rest : String),
    missesSplit l first_term rest = true → ngSplit l first_term rest = .ok (.arr [])
  | [], _, _ => by intro h; simp [ngSplit]
  | (k, v) :: tl, first_term, rest => by
    intro h
    simp only [missesSplit] at h
    simp only [ngSplit]
    by_cases hk : k = first_term
    · simp only [hk, if_true] at h ⊢
      simp only [Bool.and_eq_true] at h
      obtain ⟨⟨htr, hne⟩, hm⟩ := h
      simp only [htr, if_true]
      have : rest.isEmpty = false := by
        cases hre : rest.isEmpty
        · rfl
        · rw [hre] at hne; exact absurd hne (by decide)
      simp only [this, Bool.false_eq_true, if_false]
      exact missesB_sound v rest hm
    · simp only [hk, if_false] at h ⊢
      exact missesSplit_sound tl first_term rest h

theorem missesList_sound : ∀ (l : List PyVal) (field : String),
    missesList l field = true → ngList l field = .ok []
  | [], _ => by intro h; simp [ngList]
  | x :: xs, field => by
    intro h
    simp only [missesList, Bool.and_eq_true] at h
    obtain ⟨hx, hxs⟩ := h
    simp only [ngList, missesB_sound x field hx, missesList_sound xs field hxs]
    simp [Bind.bind, Except.bind, pyElems]

end

/-- C9 (amended, positive part): a field path that is missing from a record
— no branch of the resolution finds a present key — resolves to the empty
leaf value set without raising. -/
theorem C9_missing_keys_empty (item : PyVal) (field : String)
    (h : missesB item field = true) :
    nested_getter item field = .ok (.arr []) :=
  missesB_sound item field h

/-- C9 witness for the amended theorem. -/
theorem C9_missing_keys_empty_witness :
    missesB (.obj [("a", .str "1")]) "b" = true ∧
    nested_getter (.obj [("a", .str "1")]) "b" = .ok (.arr []) :=
  ⟨by decide, C9_missing_keys_empty _ _ (by decide)⟩

/-- C9 (counterexample): the claim that no exception propagates out of a
merge call after configuration parsing fails: the configuration parses, yet
a record whose resolved field value is a list of records nested inside a
list fan-out raises `TypeError` (unhashable elements in `list(set(...))`),
aborting the merge call. -/
theorem C9_typeerror_counterexample :
    parse_merge_info ⟨some [["g.id", "ref"]], none, none⟩
      = .ok ([["g.id", "ref"]], [], false, false) ∧
    (merge_call [.obj [("g", .arr [.obj [("id", .arr [.obj [("z", .str "1")]])]])]]
      [.obj [("ref", .str "B")]] "SRC" ⟨some [["g.id", "ref"]], none, none⟩).map
      (fun _ => ()) = .error .typeErr := by
  constructor
  · decide
  · decide

/-! ## C5: scenario D (no match) -/

/-- C5 (counterexample): for base `[{"id":"1"}]`, incoming `[{"ref":"2"}]`,
primary fields `[("id","ref")]`, the claimed unresolved count of 1 is not
reported: when nothing matches, the edge tables become empty and the
unresolved branch is never taken (the engine only counts pruned
cardinality-violating matches as unresolved, not never-matched records). -/
theorem C5_scenario_d_counterexample :
    (merge_call [.obj [("id", .str "1")]] [.obj [("ref", .str "2")]] "SRC"
        ⟨some [["id", "ref"]], none, none⟩).map (fun r => r.2.2) = .ok none ∧
    ¬ (merge_call [.obj [("id", .str "1")]] [.obj [("ref", .str "2")]] "SRC"
        ⟨some [["id", "ref"]], none, none⟩).map (fun r => r.2.2) = .ok (some 1) := by
  constructor
  · decide
  · decide

/-- C5 (amended): in scenario D the base collection is unchanged and the
incoming collection is discarded, but no unresolved count is reported. -/
theorem C5_scenario_d :
    (merge_call [.obj [("id", .str "1")]] [.obj [("ref", .str "2")]] "SRC"
        ⟨some [["id", "ref"]], none, none⟩).map (fun r => r.1.base_records)
      = .ok [.obj [("id", .str "1")]] ∧
    (merge_call [.obj [("id", .str "1")]] [.obj [("ref", .str "2")]] "SRC"
        ⟨some [["id", "ref"]], none, none⟩).map (fun r => r.1.incoming_records)
      = .ok [] ∧
    (merge_call [.obj [("id", .str "1")]] [.obj [("ref", .str "2")]] "SRC"
        ⟨some [["id", "ref"]], none, none⟩).map (fun r => r.2.2) = .ok none := by
  refine ⟨?_, ?_, ?_⟩
  · decide
  · decide
  · decide

/-! ## C3: behaviour of the prefix key on apply -/

theorem getD_set_self : ∀ (l : List PyVal) (i : Nat) (r d : PyVal),
    i < l.length → (l.set i r).getD i d = r
  | _ :: _, 0, _, _, _ => rfl
  | a :: tl, i + 1, r, d, h => by
    simpa [List.set, List.getD] using getD_set_self tl i r d (by simpa using h)
  | [], i, r, d, h => absurd h (by simp)

theorem getD_set_ne : ∀ (l : List PyVal) (i j : Nat) (r d : PyVal),
    i ≠ j → (l.set i r).getD j d = l.getD j d
  | [], _, _, _, _, _ => by simp [List.set]
  | _ :: _, 0, 0, _, _, h => absurd rfl h
  | a :: tl, 0, j + 1, r, d, _ => by simp [List.set, List.getD]
  | a :: tl, i + 1, 0, r, d, _ => by simp [List.set, List.getD]
  | a :: tl, i + 1, j + 1, r, d, h => by
    simpa [List.set, List.getD] using getD_set_ne tl i j r d (by omega)

theorem dget_objAssign_self : ∀ (l : List (String × PyVal)) (key : String) (v : PyVal),
    dget (objAssign l key v) key = some v
  | [], key, v => by simp [objAssign, dget]
  | (k, w) :: rest, key, v => by
    by_cases hk : k = key
    · simp [objAssign, dget, hk]
    · simp [objAssign, dget, hk, dget_objAssign_self rest key v]

/-- The one-step inversion of `apply_edges`. -/
theorem apply_edges_cons {inc : List PyVal} {pfx : String} {k : Nat} {v : List Nat}
    {rest : EdgeDict} {base base' : List PyVal}
    (h : apply_edges inc pfx ((k, v) :: rest) base = .ok base') :
    ∃ flds, base.getD k (.obj []) = .obj flds ∧
      apply_edges inc pfx rest
        (base.set k (.obj (objAssign flds pfx
          (.arr (v.map (fun n => inc.getD n (.obj []))))))) = .ok base' := by
  cases hb : base.getD k (.obj []) with
  | obj flds =>
    refine ⟨flds, rfl, ?_⟩
    unfold apply_edges at h
    rw [hb] at h
    simpa [Bind.bind, Except.bind] using h
  | str s =>
    unfold apply_edges at h
    rw [hb] at h
    simp [Bind.bind, Except.bind] at h
  | arr l =>
    unfold apply_edges at h
    rw [hb] at h
    simp [Bind.bind, Except.bind] at h

theorem apply_edges_frame : ∀ (d : EdgeDict) (inc : List PyVal) (pfx : String)
    (base base' : List PyVal), apply_edges inc pfx d base = .ok base' →
    ∀ j, (∀ p ∈ d, p.1 ≠ j) → base'.getD j (.obj []) = base.getD j (.obj [])
  | [], _, _, _, _, h, j, _ => by
    simp only [apply_edges] at h
    rw [Except.ok.inj h]
  | (k, v) :: rest, inc, pfx, base, base', h, j, hj => by
    obtain ⟨flds, _, happ⟩ := apply_edges_cons h
    have hk : k ≠ j := hj (k, v) (List.mem_cons_self _ _)
    rw [apply_edges_frame rest inc pfx _ base' happ j
      (fun p hp => hj p (List.mem_cons_of_mem _ hp))]
    exact getD_set_ne base k j _ _ hk

theorem apply_edges_getD_of_mem : ∀ (d : EdgeDict) (inc : List PyVal) (pfx : String)
    (base base' : List PyVal), apply_edges inc pfx d base = .ok base' →
    (d.map Prod.fst).Nodup → ∀ i s, (i, s) ∈ d → i < base.length →
    ∃ flds, base'.getD i (.obj []) = .obj flds ∧
      dget flds pfx = some (.arr (s.map (fun n => inc.getD n (.obj []))))
  | [], _, _, _, _, _, _, _, _, hmem, _ => absurd hmem (by simp)
  | (k, v) :: rest, inc, pfx, base, base', h, hnd, i, s, hmem, hlt => by
    obtain ⟨flds, hb, happ⟩ := apply_edges_cons h
    rcases List.mem_cons.mp hmem with heq | hmem'
    · obtain ⟨hik, hsv⟩ : i = k ∧ s = v :=
        ⟨congrArg Prod.fst heq, congrArg Prod.snd heq⟩
      subst hik
      subst hsv
      have hframe : base'.getD i (.obj []) =
          (base.set i (.obj (objAssign flds pfx
            (.arr (s.map (fun n => inc.getD n (.obj []))))))).getD i (.obj []) := by
        refine apply_edges_frame rest inc pfx _ base' happ i ?_
        intro p hp hpi
        simp only [List.map_cons, List.nodup_cons] at hnd
        exact hnd.1 (hpi ▸ List.mem_map_of_mem Prod.fst hp)
      rw [hframe, getD_set_self base i _ _ hlt]
      exact ⟨_, rfl, dget_objAssign_self flds pfx _⟩
    · simp only [List.map_cons, List.nodup_cons] at hnd
      exact apply_edges_getD_of_mem rest inc pfx _ base' happ hnd.2 i s hmem'
        (by simpa using hlt)

/-- C3 (counterexample): a base record that already holds the prefix key
(`"SRC": [{"old": "x"}]`) does not have the list extended: after the merge
the key holds exactly the newly matched records — the old content is gone
(`existing_annotation[self.prefix] = []` resets the key before appending). -/
theorem C3_prefix_replaced_counterexample :
    (merge_call [.obj [("id", .str "1"), ("SRC", .arr [.obj [("old", .str "x")]])]]
      [.obj [("ref", .str "1")]] "SRC" ⟨some [["id", "ref"]], none, none⟩).map
      (fun r => r.1.base_records)
      = .ok [.obj [("id", .str "1"), ("SRC", .arr [.obj [("ref", .str "1")]])]] := by
  decide

/-- C3 (amended): applying surviving edges assigns the prefix key a fresh
list holding exactly the currently matched incoming records, replacing — not
extending — any existing value under the prefix key. -/
theorem C3_prefix_overwritten (inc : List PyVal) (pfx : String) (d : EdgeDict)
    (base base' : List PyVal) (h : apply_edges inc pfx d base = .ok base')
    (hnd : (d.map Prod.fst).Nodup) (i : Nat) (s : List Nat) (hmem : (i, s) ∈ d)
    (hlt : i < base.length) :
    ∃ flds, base'.getD i (.obj []) = .obj flds ∧
      dget flds pfx = some (.arr (s.map (fun n => inc.getD n (.obj [])))) :=
  apply_edges_getD_of_mem d inc pfx base base' h hnd i s hmem hlt

/-- C3 witness for the amended theorem: the base record already holds an
`"SRC"` list, which is replaced by the fresh singleton. -/
theorem C3_prefix_overwritten_witness :
    ∃ flds,
      ([PyVal.obj [("id", .str "1"), ("SRC", .arr [.obj [("ref", .str "1")]])]].getD 0
        (.obj [])) = .obj flds ∧
      dget flds "SRC" = some (.arr ([0].map (fun n =>
        [PyVal.obj [("ref", .str "1")]].getD n (.obj [])))) :=
  C3_prefix_overwritten [.obj [("ref", .str "1")]] "SRC" [(0, [0])]
    [.obj [("id", .str "1"), ("SRC", .arr [.obj [("old", .str "x")]])]]
    [.obj [("id", .str "1"), ("SRC", .arr [.obj [("ref", .str "1")]])]]
    (by decide) (by decide) 0 [0] (by decide) (by decide)

/-! ## State-shape inversion lemmas for the orchestration -/

theorem join_records_ok_state {st st1 : MState} {p : List String}
    (h : join_records st p = .ok st1) :
    ∃ E N, st1 = { st with
      existing_to_new_edges := st.existing_to_new_edges ++ [E],
      new_to_existing_edges := st.new_to_existing_edges ++ [N] } := by
  unfold join_records at h
  rw [bind_eq_ok'] at h
  obtain ⟨keys, _, h⟩ := h
  rw [bind_eq_ok'] at h
  obtain ⟨evm, _, h⟩ := h
  rw [bind_eq_ok'] at h
  obtain ⟨nvm, _, h⟩ := h
  exact ⟨(match_records evm nvm).1, (match_records evm nvm).2, (Except.ok.inj h).symm⟩

theorem add_merged_ok {st : MState} {p : MState × EdgeDict}
    (h : add_merged_records st = .ok p) :
    ∃ b1, apply_edges st.incoming_records st.pfx (prune_to_unique_edges st).2.1
        st.base_records = .ok b1 ∧
      p = ({ st with
             base_records := b1,
             existing_to_new_edges :=
               if (prune_to_unique_edges st).1.2.isEmpty then []
               else [(prune_to_unique_edges st).1.2],
             new_to_existing_edges :=
               if (prune_to_unique_edges st).1.1.isEmpty then []
               else [(prune_to_unique_edges st).1.1] },
           (prune_to_unique_edges st).2.1) := by
  unfold add_merged_records at h
  rw [bind_eq_ok'] at h
  obtain ⟨b1, hb1, h⟩ := h
  exact ⟨b1, hb1, (Except.ok.inj h).symm⟩

theorem primary_loop_ok_fields : ∀ (fields : List (List String)) (st st' : MState),
    primary_loop st fields = .ok st' → st.primary_merge_fields = fields →
    st'.primary_merge_fields = [] ∧
    st'.secondary_merge_fields = st.secondary_merge_fields ∧
    st'.existing_to_new_unique = st.existing_to_new_unique ∧
    st'.new_to_existing_unique = st.new_to_existing_unique
  | [], st, st', h, hf => by
    simp only [primary_loop] at h
    rw [← Except.ok.inj h]
    exact ⟨hf, rfl, rfl, rfl⟩
  | q :: rest, st, st', h, _ => by
    simp only [primary_loop] at h
    rw [bind_eq_ok'] at h
    obtain ⟨st1, hj, hrec⟩ := h
    obtain ⟨E, N, hst1⟩ := join_records_ok_state hj
    have := primary_loop_ok_fields rest st1 st' hrec (by rw [hst1])
    rw [hst1] at this
    exact this

theorem secondary_loop_ok_fields : ∀ (fields : List (List String)) (st st' : MState)
    (log log' : List EdgeDict),
    secondary_loop st fields log = .ok (st', log') → st.secondary_merge_fields = fields →
    st'.secondary_merge_fields.IsSuffix fields ∧
    st'.primary_merge_fields = st.primary_merge_fields ∧
    st'.existing_to_new_unique = st.existing_to_new_unique ∧
    st'.new_to_existing_unique = st.new_to_existing_unique
  | [], st, st', log, log', h, hf => by
    simp only [secondary_loop] at h
    obtain ⟨h1, h2⟩ := Prod.mk.inj (Except.ok.inj h)
    subst h1
    exact ⟨hf ▸ List.suffix_refl _, rfl, rfl, rfl⟩
  | q :: rest, st, st', log, log', h, hf => by
    simp only [secondary_loop] at h
    by_cases he : st.existing_to_new_edges.isEmpty
    · rw [if_pos he] at h
      obtain ⟨h1, h2⟩ := Prod.mk.inj (Except.ok.inj h)
      subst h1
      exact ⟨hf ▸ List.suffix_refl _, rfl, rfl, rfl⟩
    · rw [if_neg he] at h
      rw [bind_eq_ok'] at h
      obtain ⟨st1, hj, h⟩ := h
      rw [bind_eq_ok'] at h
      obtain ⟨res, hadd, h⟩ := h
      obtain ⟨E, N, hst1⟩ := join_records_ok_state hj
      obtain ⟨b1, _, hres⟩ := add_merged_ok hadd
      have hrec := secondary_loop_ok_fields rest res.1 st' _ log' h
        (by rw [hres]; rw [hst1])
      rw [hres] at hrec
      simp only [hst1] at hrec
      refine ⟨hrec.1.trans (List.suffix_cons q rest), hrec.2.1, hrec.2.2.1, hrec.2.2.2⟩

theorem parse_fields {m : MergeInfo}
    {r : List (List String) × List (List String) × Bool × Bool}
    (h : parse_merge_info m = .ok r) :
    r.1 = m.primary_fields.getD [] ∧ r.2.1 = m.secondary_fields.getD [] := by
  unfold parse_merge_info at h
  rw [bind_eq_ok'] at h
  obtain ⟨bools, _, h⟩ := h
  match bools with
  | [] => exact absurd h (by simp)
  | [a] => exact absurd h (by simp)
  | [a, b] => rw [← Except.ok.inj h]; exact ⟨rfl, rfl⟩
  | a :: b :: c :: tl => exact absurd h (by simp)

theorem mkState_ok {base incoming : List PyVal} {pfx : String} {minfo : MergeInfo}
    {st : MState} (h : mkState base incoming pfx minfo = .ok st) :
    st.base_records = base ∧ st.incoming_records = incoming ∧ st.pfx = pfx ∧
    st.primary_merge_fields = minfo.primary_fields.getD [] ∧
    st.secondary_merge_fields = minfo.secondary_fields.getD [] ∧
    st.existing_to_new_edges = [] ∧ st.new_to_existing_edges = [] := by
  unfold mkState at h
  rw [bind_eq_ok'] at h
  obtain ⟨parsed, hp, h⟩ := h
  obtain ⟨h1, h2⟩ := parse_fields hp
  rw [← Except.ok.inj h]
  exact ⟨rfl, rfl, rfl, h1, h2, rfl, rfl⟩

theorem merge_records_ok_parts {st : MState} {st' : MState} {log : List EdgeDict}
    {report : Option Nat} (h : merge_records st = .ok (st', log, report)) :
    ∃ st1 st2 res res2,
      primary_loop st st.primary_merge_fields = .ok st1 ∧
      st2 = { st1 with
              existing_to_new_edges := intersect_edges st1.existing_to_new_edges,
              new_to_existing_edges := intersect_edges st1.new_to_existing_edges } ∧
      add_merged_records st2 = .ok res ∧
      secondary_loop res.1 res.1.secondary_merge_fields [res.2] = .ok res2 ∧
      st' = { res2.1 with incoming_records := [] } ∧ log = res2.2 ∧
      report = (match res2.1.existing_to_new_edges with
                | e0 :: _ => some e0.length
                | [] => none) := by
  unfold merge_records at h
  rw [bind_eq_ok'] at h
  obtain ⟨st1, h1, h⟩ := h
  rw [bind_eq_ok'] at h
  obtain ⟨res, hadd, h⟩ := h
  rw [bind_eq_ok'] at h
  obtain ⟨res2, hsec, h⟩ := h
  have h' := Except.ok.inj h
  refine ⟨st1, _, res, res2, h1, rfl, hadd, hsec, ?_, ?_, ?_⟩
  · exact (congrArg Prod.fst h').symm
  · exact (congrArg (fun x => x.2.1) h').symm
  · exact (congrArg (fun x => x.2.2) h').symm

/-! ## C6: consumption of the merge specification -/

/-- C6 (counterexample): the merge specification is not immutable.  The
engine's field-list attributes alias the caller's configuration lists
(`merge_info.get` returns the stored object) and the run empties the
primary list by popping pairs off it: after a merge call with primary pairs
`[["a", "b"]]`, the list is `[]`, not `[["a", "b"]]`. -/
theorem C6_spec_mutation_counterexample :
    (merge_call [] [] "SRC" ⟨some [["a", "b"]], none, none⟩).map
      (fun r => r.1.primary_merge_fields) = .ok [] ∧
    ([["a", "b"]] : List (List String)) ≠ [] := by
  constructor
  · decide
  · decide

/-- C6 (amended): the merge engine consumes the caller's field lists through
aliasing: after a successful merge call the primary list is empty and the
secondary list has been reduced to a suffix of its original value (one pair
popped per narrowing round). -/
theorem C6_field_lists_consumed (base incoming : List PyVal) (pfx : String)
    (minfo : MergeInfo) (st' : MState) (log : List EdgeDict) (report : Option Nat)
    (hrun : merge_call base incoming pfx minfo = .ok (st', log, report)) :
    st'.primary_merge_fields = [] ∧
    st'.secondary_merge_fields.IsSuffix (minfo.secondary_fields.getD []) := by
  unfold merge_call at hrun
  rw [bind_eq_ok'] at hrun
  obtain ⟨st, hmk, hrun⟩ := hrun
  obtain ⟨_, _, _, _, hsec0, _, _⟩ := mkState_ok hmk
  obtain ⟨st1, st2, res, res2, h1, hst2, hadd, hsec, hst', _, _⟩ :=
    merge_records_ok_parts hrun
  obtain ⟨hp1, hs1, _, _⟩ := primary_loop_ok_fields _ st st1 h1 rfl
  obtain ⟨b1, _, hres⟩ := add_merged_ok hadd
  have hres1 : res.1.primary_merge_fields = [] ∧
      res.1.secondary_merge_fields = st.secondary_merge_fields := by
    rw [hres, hst2]
    exact ⟨hp1, hs1⟩
  obtain ⟨hsuf, hprim, _, _⟩ :=
    secondary_loop_ok_fields _ res.1 res2.1 _ res2.2 (by
      rw [show ((res2.1, res2.2) : MState × List EdgeDict) = res2 from rfl]
      exact hsec) rfl
  constructor
  · rw [hst']
    simpa using hprim.trans hres1.1
  · rw [hst']
    simp only []
    have : res2.1.secondary_merge_fields.IsSuffix st.secondary_merge_fields := by
      rw [← hres1.2]
      exact hsuf
    rw [← hsec0]
    simpa using this

/-- C6 witness for the amended theorem. -/
theorem C6_field_lists_consumed_witness :
    MState.primary_merge_fields
      { base_records := [], incoming_records := [], pfx := "SRC",
        primary_merge_fields := [], secondary_merge_fields := [],
        existing_to_new_unique := false, new_to_existing_unique := false,
        existing_to_new_edges := [], new_to_existing_edges := [] } = [] ∧
    List.IsSuffix
      (MState.secondary_merge_fields
        { base_records := [], incoming_records := [], pfx := "SRC",
          primary_merge_fields := [], secondary_merge_fields := [],
          existing_to_new_unique := false, new_to_existing_unique := false,
          existing_to_new_edges := [], new_to_existing_edges := [] })
      ((MergeInfo.mk (some [["a", "b"]]) none none).secondary_fields.getD []) :=
  C6_field_lists_consumed [] [] "SRC" ⟨some [["a", "b"]], none, none⟩
    { base_records := [], incoming_records := [], pfx := "SRC",
      primary_merge_fields := [], secondary_merge_fields := [],
      existing_to_new_unique := false, new_to_existing_unique := false,
      existing_to_new_edges := [], new_to_existing_edges := [] }
    [[]] none (by rfl)

/-! ## C4: configuration anomalies -/

theorem get_merge_fields_err : ∀ p : List String, p.length ≠ 2 →
    get_merge_fields p = .error .valErr
  | [], _ => rfl
  | [_], _ => rfl
  | [_, _], h => absurd rfl h
  | _ :: _ :: _ :: _, _ => rfl

theorem join_records_err {st : MState} {p : List String}
    (h : get_merge_fields p = .error .valErr) :
    join_records st p = .error .valErr := by
  unfold join_records
  rw [h]
  rfl

theorem primary_loop_err : ∀ (fields : List (List String)) (st : MState)
    (p : List String), p ∈ fields → p.length ≠ 2 →
    ∃ e, primary_loop st fields = .error e
  | [], _, _, hmem, _ => absurd hmem (by simp)
  | q :: rest, st, p, hmem, hlen => by
    rcases List.mem_cons.mp hmem with heq | hmem'
    · subst heq
      refine ⟨.valErr, ?_⟩
      simp only [primary_loop]
      rw [join_records_err (get_merge_fields_err _ hlen)]
      rfl
    · cases hj : join_records { st with primary_merge_fields := rest } q with
      | error e =>
        refine ⟨e, ?_⟩
        simp only [primary_loop]
        rw [hj]
        rfl
      | ok st1 =>
        obtain ⟨e, he⟩ := primary_loop_err rest st1 p hmem' hlen
        refine ⟨e, ?_⟩
        simp only [primary_loop]
        rw [hj]
        simpa [Bind.bind, Except.bind] using he

/-- C4 (counterexample): an unrecognized cardinality token is not detected:
`convert_merge_type_to_bool` treats anything other than `"one"` as `"many"`,
so a merge call configured with `("bogus", "bogus")` proceeds as a
many-to-many merge and mutates the base collection instead of aborting. -/
theorem C4_bad_cardinality_token_counterexample :
    (merge_call [.obj [("id", .str "1")]] [.obj [("ref", .str "1")]] "SRC"
      ⟨some [["id", "ref"]], none, some ["bogus", "bogus"]⟩).map
      (fun r => r.1.base_records)
      = .ok [.obj [("id", .str "1"), ("SRC", .arr [.obj [("ref", .str "1")]])]] ∧
    [PyVal.obj [("id", .str "1"), ("SRC", .arr [.obj [("ref", .str "1")]])]]
      ≠ [PyVal.obj [("id", .str "1")]] := by
  constructor
  · decide
  · decide

/-- C4 (amended): the engine itself does not pre-check its configuration —
missing primary fields default to an empty list (the merge does nothing) and
unrecognized cardinality tokens are treated as `"many"` — but a malformed
primary field pair (length other than two) does make the merge call raise
(during the first join in which the pair is popped, before any base
mutation, since mutation only occurs in the later apply step). -/
theorem C4_malformed_pair_errors (base incoming : List PyVal) (pfx : String)
    (minfo : MergeInfo) (p : List String)
    (hp : p ∈ minfo.primary_fields.getD []) (hlen : p.length ≠ 2) :
    ∃ e, merge_call base incoming pfx minfo = .error e := by
  cases hmk : mkState base incoming pfx minfo with
  | error e =>
    refine ⟨e, ?_⟩
    unfold merge_call
    rw [hmk]
    rfl
  | ok st =>
    obtain ⟨_, _, _, hprim, _, _, _⟩ := mkState_ok hmk
    obtain ⟨e, he⟩ := primary_loop_err st.primary_merge_fields st p (hprim ▸ hp) hlen
    refine ⟨e, ?_⟩
    unfold merge_call
    rw [hmk]
    show merge_records st = .error e
    unfold merge_records
    rw [he]
    rfl

/-- C4 witness for the amended theorem. -/
theorem C4_malformed_pair_errors_witness :
    ∃ e, merge_call [] [] "SRC" ⟨some [["a"]], none, none⟩ = .error e :=
  C4_malformed_pair_errors [] [] "SRC" ⟨some [["a"]], none, none⟩ ["a"]
    (by decide) (by decide)

/-! ## Set lemmas -/

theorem mem_insSorted {n x : Nat} : ∀ {l : List Nat}, x ∈ insSorted n l ↔ x = n ∨ x ∈ l
  | [] => by simp [insSorted]
  | m :: rest => by
    simp only [insSorted]
    split
    · simp only [List.mem_cons]
    · split
      · next _ h => subst h; simp only [List.mem_cons]; tauto
      · simp only [List.mem_cons, mem_insSorted (l := rest)]
        tauto

theorem mem_setUnion {x : Nat} : ∀ {a b : List Nat}, x ∈ setUnion a b ↔ x ∈ a ∨ x ∈ b
  | [], b => by simp [setUnion]
  | y :: ys, b => by
    simp only [setUnion, mem_insSorted, List.mem_cons, mem_setUnion (a := ys)]
    tauto

theorem contains_iff {l : List Nat} {x : Nat} : l.contains x = true ↔ x ∈ l := by
  simp [List.contains]

theorem mem_setInter {x : Nat} {a b : List Nat} :
    x ∈ setInter a b ↔ x ∈ a ∧ x ∈ b := by
  simp [setInter, List.mem_filter, contains_iff]

theorem mem_setDiff {x : Nat} {a b : List Nat} :
    x ∈ setDiff a b ↔ x ∈ a ∧ x ∉ b := by
  simp [setDiff, List.mem_filter, contains_iff]

theorem isEmpty_iff_nil {α : Type} {l : List α} : l.isEmpty = true ↔ l = [] := by
  cases l <;> simp

theorem two_mem_two_le_length {l : List Nat} {x y : Nat}
    (hx : x ∈ l) (hy : y ∈ l) (hne : x ≠ y) : 2 ≤ l.length := by
  cases l with
  | nil => simp at hx
  | cons a tl =>
    cases tl with
    | nil =>
      simp only [List.mem_singleton] at hx hy
      exact absurd (hx.trans hy.symm) hne
    | cons b tl2 => simp

/-! ## Dict lemmas -/

theorem dictGet_dictSet {κ : Type} [DecidableEq κ] (key k : κ) (val : List Nat) :
    ∀ d : List (κ × List Nat),
    dictGet (dictSet d key val) k = if k = key then some val else dictGet d k := by
  intro d
  induction d with
  | nil =>
    simp only [dictSet, dictGet]
    by_cases h : key = k
    · subst h; simp
    · rw [if_neg h, if_neg (fun hh => h hh.symm)]
  | cons p rest ih =>
    obtain ⟨k0, v0⟩ := p
    simp only [dictSet]
    by_cases h0 : k0 = key
    · subst h0
      simp only [if_pos rfl, dictGet]
      by_cases hk : k0 = k
      · subst hk; simp
      · rw [if_neg hk, if_neg (fun hh : k = k0 => hk hh.symm), if_neg hk]
    · rw [if_neg h0]
      simp only [dictGet, ih]
      by_cases hk : k0 = k
      · subst hk
        rw [if_pos rfl, if_neg (fun hh : k0 = key => h0 hh), if_pos rfl]
      · rw [if_neg hk, if_neg hk]

theorem dictGet_dictDel {κ : Type} [DecidableEq κ] (key k : κ) (h : k ≠ key) :
    ∀ d : List (κ × List Nat), dictGet (dictDel d key) k = dictGet d k := by
  intro d
  induction d with
  | nil => rfl
  | cons p rest ih =>
    obtain ⟨k0, v0⟩ := p
    simp only [dictDel]
    by_cases h0 : k0 = key
    · rw [if_pos h0]
      simp only [dictGet]
      rw [if_neg (fun hh : k0 = k => h (hh.symm.trans h0))]
    · rw [if_neg h0]
      simp only [dictGet, ih]

theorem dictGet_eq_none {κ : Type} [DecidableEq κ] :
    ∀ {d : List (κ × List Nat)} {k : κ}, dictGet d k = none ↔ k ∉ d.map Prod.fst
  | [], k => by simp [dictGet]
  | (k0, v0) :: rest, k => by
    simp only [dictGet, List.map_cons, List.mem_cons]
    by_cases h : k0 = k
    · subst h; simp
    · rw [if_neg h]
      simp only [dictGet_eq_none (d := rest)]
      constructor
      · intro hn
        intro hc
        rcases hc with hc | hc
        · exact h hc.symm
        · exact hn hc
      · intro hn
        exact fun hc => hn (Or.inr hc)

theorem dictGet_mem {κ : Type} [DecidableEq κ] :
    ∀ {d : List (κ × List Nat)} {k : κ} {v : List Nat},
    dictGet d k = some v → (k, v) ∈ d
  | [], _, _ => by simp [dictGet]
  | (k0, v0) :: rest, k, v => by
    simp only [dictGet]
    by_cases h : k0 = k
    · subst h
      rw [if_pos rfl]
      intro hv
      simp [Option.some.inj hv]
    · rw [if_neg h]
      intro hv
      exact List.mem_cons_of_mem _ (dictGet_mem hv)

theorem mem_dictGet {κ : Type} [DecidableEq κ] :
    ∀ {d : List (κ × List Nat)} {k : κ} {v : List Nat},
    keysNodup d → (k, v) ∈ d → dictGet d k = some v
  | [], _, _, _, hm => absurd hm (by simp)
  | (k0, v0) :: rest, k, v, hnd, hm => by
    simp only [keysNodup, List.map_cons, List.nodup_cons] at hnd
    rcases List.mem_cons.mp hm with heq | hm'
    · obtain ⟨h1, h2⟩ : k = k0 ∧ v = v0 :=
        ⟨congrArg Prod.fst heq, congrArg Prod.snd heq⟩
      subst h1; subst h2
      simp [dictGet]
    · have hk : k0 ≠ k := by
        intro hc
        subst hc
        exact hnd.1 (List.mem_map_of_mem Prod.fst hm')
      simp only [dictGet, if_neg hk]
      exact mem_dictGet hnd.2 hm'

theorem mem_keys_of_dictGet {κ : Type} [DecidableEq κ] {d : List (κ × List Nat)}
    {k : κ} {v : List Nat} (h : dictGet d k = some v) : k ∈ d.map Prod.fst := by
  by_contra hc
  rw [← dictGet_eq_none] at hc
  rw [h] at hc
  exact Option.noConfusion hc

theorem entries_dictSet {κ : Type} [DecidableEq κ] {key : κ} {val : List Nat}
    {p : κ × List Nat} : ∀ {d : List (κ × List Nat)},
    p ∈ dictSet d key val → p = (key, val) ∨ p ∈ d
  | [] => by simp [dictSet]
  | (k0, v0) :: rest => by
    simp only [dictSet]
    by_cases h0 : k0 = key
    · subst h0
      rw [if_pos rfl]
      intro hm
      rcases List.mem_cons.mp hm with heq | hm'
      · subst heq; tauto
      · tauto
    · rw [if_neg h0]
      intro hm
      rcases List.mem_cons.mp hm with heq | hm'
      · subst heq; simp
      · rcases entries_dictSet hm' with h | h
        · tauto
        · simp [h]

theorem entries_dictDel {κ : Type} [DecidableEq κ] {key : κ} {p : κ × List Nat} :
    ∀ {d : List (κ × List Nat)}, p ∈ dictDel d key → p ∈ d
  | [] => by simp [dictDel]
  | (k0, v0) :: rest => by
    simp only [dictDel]
    by_cases h0 : k0 = key
    · rw [if_pos h0]
      exact fun hm => List.mem_cons_of_mem _ hm
    · rw [if_neg h0]
      intro hm
      rcases List.mem_cons.mp hm with heq | hm'
      · subst heq; simp
      · exact List.mem_cons_of_mem _ (entries_dictDel hm')

theorem keys_dictSet {κ : Type} [DecidableEq κ] (key : κ) (val : List Nat) :
    ∀ d : List (κ × List Nat),
    (dictSet d key val).map Prod.fst =
      if key ∈ d.map Prod.fst then d.map Prod.fst else d.map Prod.fst ++ [key]
  | [] => by simp [dictSet]
  | (k0, v0) :: rest => by
    simp only [dictSet, List.map_cons, List.mem_cons]
    by_cases h0 : k0 = key
    · subst h0
      simp
    · rw [if_neg h0]
      simp only [List.map_cons, keys_dictSet key val rest]
      by_cases hm : key ∈ rest.map Prod.fst
      · rw [if_pos hm, if_pos (Or.inr hm)]
      · rw [if_neg hm, if_neg (by
          intro hc
          rcases hc with hc | hc
          · exact h0 hc.symm
          · exact hm hc)]
        simp

theorem keysNodup_dictSet {κ : Type} [DecidableEq κ] {key : κ} {val : List Nat}
    {d : List (κ × List Nat)} (hnd : keysNodup d) : keysNodup (dictSet d key val) := by
  unfold keysNodup at hnd ⊢
  rw [keys_dictSet]
  by_cases hm : key ∈ d.map Prod.fst
  · rw [if_pos hm]; exact hnd
  · rw [if_neg hm]
    simp [List.nodup_append, hnd, hm]

theorem keys_dictDel {κ : Type} [DecidableEq κ] (key : κ) :
    ∀ d : List (κ × List Nat),
    (dictDel d key).map Prod.fst ⊆ d.map Prod.fst := by
  intro d
  induction d with
  | nil => simp [dictDel]
  | cons p rest ih =>
    obtain ⟨k0, v0⟩ := p
    simp only [dictDel]
    by_cases h0 : k0 = key
    · rw [if_pos h0]
      exact fun a ha => by simp [ha]
    · rw [if_neg h0]
      simp only [List.map_cons]
      intro a ha
      rcases List.mem_cons.mp ha with heq | hm
      · simp [heq]
      · simp [ih hm]

theorem keysNodup_dictDel {κ : Type} [DecidableEq κ] {key : κ}
    {d : List (κ × List Nat)} (hnd : keysNodup d) : keysNodup (dictDel d key) := by
  unfold keysNodup at hnd ⊢
  induction d with
  | nil => simp [dictDel]
  | cons p rest ih =>
    obtain ⟨k0, v0⟩ := p
    simp only [List.map_cons, List.nodup_cons] at hnd
    simp only [dictDel]
    by_cases h0 : k0 = key
    · rw [if_pos h0]; exact hnd.2
    · rw [if_neg h0]
      simp only [List.map_cons, List.nodup_cons]
      exact ⟨fun hc => hnd.1 (keys_dictDel key rest hc), ih hnd.2⟩

/-! ## `add_values_to_sets` characterization -/

theorem memDict_avs {κ : Type} [DecidableEq κ] {vals : List Nat}
    (hne : vals.isEmpty = false) :
    ∀ (keys : List κ) (d : List (κ × List Nat)) (k : κ) (x : Nat),
    memDictB (add_values_to_sets keys vals d) k x = true ↔
      memDictB d k x = true ∨ (k ∈ keys ∧ x ∈ vals) := by
  intro keys
  induction keys with
  | nil =>
    intro d k x
    simp [add_values_to_sets, hne]
  | cons k0 ks ih =>
    intro d k x
    have hstep : add_values_to_sets (k0 :: ks) vals d
        = add_values_to_sets ks vals
            (match dictGet d k0 with
             | some s => if !s.isEmpty then dictSet d k0 (setUnion s vals)
                         else dictSet d k0 vals
             | none => dictSet d k0 vals) := by
      simp [add_values_to_sets, hne]
    have hd' : ∀ (k : κ) (x : Nat),
        memDictB (match dictGet d k0 with
             | some s => if !s.isEmpty then dictSet d k0 (setUnion s vals)
                         else dictSet d k0 vals
             | none => dictSet d k0 vals) k x = true ↔
          memDictB d k x = true ∨ (k = k0 ∧ x ∈ vals) := by
      intro k x
      cases hg : dictGet d k0 with
      | none =>
        simp only [memDictB, dictGet_dictSet]
        by_cases hk : k = k0
        · subst hk
          rw [if_pos rfl, hg]
          simp [contains_iff]
        · rw [if_neg hk]
          simp [hk]
      | some s =>
        cases hse : s.isEmpty with
        | false =>
          by_cases hk : k = k0
          · subst hk
            simp [memDictB, dictGet_dictSet, hse, hg, contains_iff, mem_setUnion]
          · simp [memDictB, dictGet_dictSet, hse, hk]
        | true =>
          rw [isEmpty_iff_nil] at hse
          subst hse
          by_cases hk : k = k0
          · subst hk
            simp [memDictB, dictGet_dictSet, hg, contains_iff]
          · simp [memDictB, dictGet_dictSet, hk]
    rw [hstep, ih]
    rw [hd' k x]
    simp only [List.mem_cons]
    tauto

theorem keysNodup_avs {κ : Type} [DecidableEq κ] {vals : List Nat} :
    ∀ (keys : List κ) (d : List (κ × List Nat)),
    keysNodup d → keysNodup (add_values_to_sets keys vals d) := by
  intro keys
  induction keys with
  | nil =>
    intro d hnd
    simp only [add_values_to_sets]
    split
    · exact hnd
    · simpa using hnd
  | cons k0 ks ih =>
    intro d hnd
    by_cases hne : vals.isEmpty
    · simpa [add_values_to_sets, hne] using hnd
    · rw [show add_values_to_sets (k0 :: ks) vals d
          = add_values_to_sets ks vals
              (match dictGet d k0 with
               | some s => if !s.isEmpty then dictSet d k0 (setUnion s vals)
                           else dictSet d k0 vals
               | none => dictSet d k0 vals) by
        simp [add_values_to_sets, Bool.not_eq_true _ ▸ hne]]
      refine ih _ ?_
      cases dictGet d k0 with
      | none => exact keysNodup_dictSet hnd
      | some s =>
        cases hse : s.isEmpty with
        | false =>
          simp only [hse, Bool.not_false]
          rw [if_pos trivial]
          exact keysNodup_dictSet hnd
        | true =>
          simp only [hse, Bool.not_true]
          rw [if_neg (by simp)]
          exact keysNodup_dictSet hnd

theorem setUnion_ne_nil {a b : List Nat} (hb : b ≠ []) : setUnion a b ≠ [] := by
  intro hc
  obtain ⟨x, hx⟩ : ∃ x, x ∈ b := by
    cases b
    · exact absurd rfl hb
    · exact ⟨_, List.mem_cons_self _ _⟩
  have : x ∈ setUnion a b := mem_setUnion.mpr (Or.inr hx)
  rw [hc] at this
  simp at this

theorem valuesNE_dictSet {κ : Type} [DecidableEq κ] {d : List (κ × List Nat)}
    {key : κ} {val : List Nat} (hd : valuesNE d) (hv : val ≠ []) :
    valuesNE (dictSet d key val) := by
  intro p hp
  rcases entries_dictSet hp with heq | hm
  · subst heq; exact hv
  · exact hd p hm

theorem valuesNE_avs {κ : Type} [DecidableEq κ] {vals : List Nat}
    (hne : vals ≠ []) :
    ∀ (keys : List κ) (d : List (κ × List Nat)),
    valuesNE d → valuesNE (add_values_to_sets keys vals d) := by
  intro keys
  induction keys with
  | nil =>
    intro d hd
    simp only [add_values_to_sets]
    split
    · exact hd
    · simpa using hd
  | cons k0 ks ih =>
    intro d hd
    have hne' : vals.isEmpty = false := by
      cases vals
      · exact absurd rfl hne
      · rfl
    rw [show add_values_to_sets (k0 :: ks) vals d
        = add_values_to_sets ks vals
            (match dictGet d k0 with
             | some s => if !s.isEmpty then dictSet d k0 (setUnion s vals)
                         else dictSet d k0 vals
             | none => dictSet d k0 vals) by
      simp [add_values_to_sets, hne']]
    refine ih _ ?_
    cases dictGet d k0 with
    | none => exact valuesNE_dictSet hd hne
    | some s =>
      cases hse : s.isEmpty with
      | false =>
        simp only [hse, Bool.not_false]
        rw [if_pos trivial]
        exact valuesNE_dictSet hd (setUnion_ne_nil hne)
      | true =>
        simp only [hse, Bool.not_true]
        rw [if_neg (by simp)]
        exact valuesNE_dictSet hd hne

theorem mem_keys_iff_memDict {κ : Type} [DecidableEq κ] {d : List (κ × List Nat)}
    (hvne : valuesNE d) (k : κ) :
    k ∈ d.map Prod.fst ↔ ∃ x, memDictB d k x = true := by
  constructor
  · intro hk
    cases hg : dictGet d k with
    | none => exact absurd (dictGet_eq_none.mp hg) (by simp [hk])
    | some v =>
      have hv : v ≠ [] := hvne (k, v) (dictGet_mem hg)
      obtain ⟨x, hx⟩ : ∃ x, x ∈ v := by
        cases v
        · exact absurd rfl hv
        · exact ⟨_, List.mem_cons_self _ _⟩
      exact ⟨x, by simp [memDictB, hg, contains_iff, hx]⟩
  · rintro ⟨x, hx⟩
    unfold memDictB at hx
    cases hg : dictGet d k with
    | none => rw [hg] at hx; simp at hx
    | some v => exact mem_keys_of_dictGet hg

/-! ## Value-map characterization -/

theorem bool_eq_of_iff {a b : Bool} (h : a = true ↔ b = true) : a = b := by
  cases a <;> cases b <;> simp_all

theorem mvl_ok_mem (ann : List PyVal) (field : String) :
    ∀ (idxs : List Nat) (acc m : ValDict),
    match_value_loop ann field idxs acc = .ok m →
    ∀ (v : String) (i : Nat),
    memDictB m v i = true ↔
      memDictB acc v i = true ∨
        (i ∈ idxs ∧ v ∈ leafValues (ann.getD i (.obj [])) field)
  | [], acc, m, h, v, i => by
    simp only [match_value_loop] at h
    rw [← Except.ok.inj h]
    simp
  | idx :: rest, acc, m, h, v, i => by
    simp only [match_value_loop] at h
    rw [bind_eq_ok'] at h
    obtain ⟨value, hval, h⟩ := h
    rw [bind_eq_ok'] at h
    obtain ⟨keys, hkeys, h⟩ := h
    have hleaf : leafValues (ann.getD idx (.obj [])) field = keys := by
      unfold leafValues
      rw [hval]
      show (match py_iter_keys value with
            | Except.ok keys => keys
            | Except.error _ => []) = keys
      rw [hkeys]
    rw [mvl_ok_mem ann field rest _ m h v i,
      memDict_avs (by rfl : ([idx] : List Nat).isEmpty = false)]
    simp only [List.mem_singleton, List.mem_cons, List.not_mem_nil, or_false]
    constructor
    · rintro ((hacc | ⟨hv, rfl⟩) | ⟨hm, hl⟩)
      · exact Or.inl hacc
      · exact Or.inr ⟨Or.inl rfl, hleaf ▸ hv⟩
      · exact Or.inr ⟨Or.inr hm, hl⟩
    · rintro (hacc | ⟨(rfl | hm), hl⟩)
      · exact Or.inl (Or.inl hacc)
      · exact Or.inl (Or.inr ⟨hleaf ▸ hl, rfl⟩)
      · exact Or.inr ⟨hm, hl⟩

theorem mvl_ok_wf (ann : List PyVal) (field : String) :
    ∀ (idxs : List Nat) (acc m : ValDict),
    match_value_loop ann field idxs acc = .ok m →
    keysNodup acc → valuesNE acc → keysNodup m ∧ valuesNE m
  | [], acc, m, h, hnd, hne => by
    simp only [match_value_loop] at h
    rw [← Except.ok.inj h]
    exact ⟨hnd, hne⟩
  | idx :: rest, acc, m, h, hnd, hne => by
    simp only [match_value_loop] at h
    rw [bind_eq_ok'] at h
    obtain ⟨value, _, h⟩ := h
    rw [bind_eq_ok'] at h
    obtain ⟨keys, _, h⟩ := h
    exact mvl_ok_wf ann field rest _ m h
      (keysNodup_avs keys acc hnd)
      (valuesNE_avs (by simp) keys acc hne)

theorem mvr_ok_mem {ann : List PyVal} {field : String} {idxs : Option (List Nat)}
    {m : ValDict} (h : match_value_to_records ann field idxs = .ok m)
    (v : String) (i : Nat) :
    memDictB m v i = true ↔
      field.isEmpty = false ∧ i ∈ eff_indices ann idxs ∧
        v ∈ leafValues (ann.getD i (.obj [])) field := by
  unfold match_value_to_records at h
  by_cases hf : field.isEmpty
  · rw [if_pos hf] at h
    rw [← Except.ok.inj h]
    simp [memDictB, dictGet, hf]
  · rw [if_neg hf] at h
    rw [Bool.not_eq_true] at hf
    match hx : idxs with
    | some (i0 :: is) =>
      rw [mvl_ok_mem ann field (i0 :: is) [] m h v i]
      simp [memDictB, dictGet, eff_indices, hf]
    | some [] =>
      rw [mvl_ok_mem ann field (List.range ann.length) [] m h v i]
      simp [memDictB, dictGet, eff_indices, hf]
    | none =>
      rw [mvl_ok_mem ann field (List.range ann.length) [] m h v i]
      simp [memDictB, dictGet, eff_indices, hf]

theorem mvr_ok_wf {ann : List PyVal} {field : String} {idxs : Option (List Nat)}
    {m : ValDict} (h : match_value_to_records ann field idxs = .ok m) :
    keysNodup m ∧ valuesNE m := by
  unfold match_value_to_records at h
  by_cases hf : field.isEmpty
  · rw [if_pos hf] at h
    rw [← Except.ok.inj h]
    constructor
    · simp [keysNodup]
    · simp [valuesNE]
  · rw [if_neg hf] at h
    match hx : idxs with
    | some (i0 :: is) =>
      exact mvl_ok_wf ann field (i0 :: is) [] m h (by simp [keysNodup]) (by simp [valuesNE])
    | some [] =>
      exact mvl_ok_wf ann field (List.range ann.length) [] m h (by simp [keysNodup])
        (by simp [valuesNE])
    | none =>
      exact mvl_ok_wf ann field (List.range ann.length) [] m h (by simp [keysNodup])
        (by simp [valuesNE])

/-! ## `match_records` characterization -/

theorem mrl_mem (nvm : ValDict) :
    ∀ (evm : ValDict) (e2n n2e : EdgeDict) (e n : Nat),
    (memDictB (match_records_loop nvm evm e2n n2e).1 e n = true ↔
      memDictB e2n e n = true ∨
        ∃ v s t, (v, s) ∈ evm ∧ dictGet nvm v = some t ∧ t ≠ [] ∧ e ∈ s ∧ n ∈ t) ∧
    (memDictB (match_records_loop nvm evm e2n n2e).2 n e = true ↔
      memDictB n2e n e = true ∨
        ∃ v s t, (v, s) ∈ evm ∧ dictGet nvm v = some t ∧ t ≠ [] ∧ e ∈ s ∧ n ∈ t)
  | [], e2n, n2e, e, n => by simp [match_records_loop]
  | (key, eset) :: rest, e2n, n2e, e, n => by
    simp only [match_records_loop]
    cases hg : dictGet nvm key with
    | none =>
      obtain ⟨ih1, ih2⟩ := mrl_mem nvm rest e2n n2e e n
      constructor
      · rw [ih1]
        apply or_congr_right
        constructor
        · rintro ⟨v, s, t, hm, hgv, hte, hes, hnt⟩
          exact ⟨v, s, t, List.mem_cons_of_mem _ hm, hgv, hte, hes, hnt⟩
        · rintro ⟨v, s, t, hm, hgv, hte, hes, hnt⟩
          rcases List.mem_cons.mp hm with heq | hm'
          · obtain ⟨h1, h2⟩ : v = key ∧ s = eset :=
              ⟨congrArg Prod.fst heq, congrArg Prod.snd heq⟩
            subst h1
            rw [hg] at hgv
            exact Option.noConfusion hgv
          · exact ⟨v, s, t, hm', hgv, hte, hes, hnt⟩
      · rw [ih2]
        apply or_congr_right
        constructor
        · rintro ⟨v, s, t, hm, hgv, hte, hes, hnt⟩
          exact ⟨v, s, t, List.mem_cons_of_mem _ hm, hgv, hte, hes, hnt⟩
        · rintro ⟨v, s, t, hm, hgv, hte, hes, hnt⟩
          rcases List.mem_cons.mp hm with heq | hm'
          · obtain ⟨h1, h2⟩ : v = key ∧ s = eset :=
              ⟨congrArg Prod.fst heq, congrArg Prod.snd heq⟩
            subst h1
            rw [hg] at hgv
            exact Option.noConfusion hgv
          · exact ⟨v, s, t, hm', hgv, hte, hes, hnt⟩
    | some nset =>
      cases hse : nset.isEmpty with
      | true =>
        rw [isEmpty_iff_nil] at hse
        subst hse
        simp only [List.isEmpty_nil, Bool.not_true, Bool.false_eq_true, if_false]
        obtain ⟨ih1, ih2⟩ := mrl_mem nvm rest e2n n2e e n
        constructor
        · rw [ih1]
          apply or_congr_right
          constructor
          · rintro ⟨v, s, t, hm, hgv, hte, hes, hnt⟩
            exact ⟨v, s, t, List.mem_cons_of_mem _ hm, hgv, hte, hes, hnt⟩
          · rintro ⟨v, s, t, hm, hgv, hte, hes, hnt⟩
            rcases List.mem_cons.mp hm with heq | hm'
            · obtain ⟨h1, h2⟩ : v = key ∧ s = eset :=
                ⟨congrArg Prod.fst heq, congrArg Prod.snd heq⟩
              subst h1
              rw [hg] at hgv
              rw [Option.some.inj hgv] at hte
              exact absurd rfl hte
            · exact ⟨v, s, t, hm', hgv, hte, hes, hnt⟩
        · rw [ih2]
          apply or_congr_right
          constructor
          · rintro ⟨v, s, t, hm, hgv, hte, hes, hnt⟩
            exact ⟨v, s, t, List.mem_cons_of_mem _ hm, hgv, hte, hes, hnt⟩
          · rintro ⟨v, s, t, hm, hgv, hte, hes, hnt⟩
            rcases List.mem_cons.mp hm with heq | hm'
            · obtain ⟨h1, h2⟩ : v = key ∧ s = eset :=
                ⟨congrArg Prod.fst heq, congrArg Prod.snd heq⟩
              subst h1
              rw [hg] at hgv
              rw [Option.some.inj hgv] at hte
              exact absurd rfl hte
            · exact ⟨v, s, t, hm', hgv, hte, hes, hnt⟩
      | false =>
        simp only [hse, Bool.not_false, if_pos trivial]
        obtain ⟨ih1, ih2⟩ := mrl_mem nvm rest
          (add_values_to_sets eset nset e2n) (add_values_to_sets nset eset n2e) e n
        have hne : nset ≠ [] := by
          intro hc
          rw [hc] at hse
          simp at hse
        constructor
        · rw [ih1, memDict_avs hse]
          constructor
          · rintro ((hacc | ⟨hes, hnt⟩) | ⟨v, s, t, hm, hgv, hte, hess, hnts⟩)
            · exact Or.inl hacc
            · exact Or.inr ⟨key, eset, nset, List.mem_cons_self _ _, hg, hne, hes, hnt⟩
            · exact Or.inr ⟨v, s, t, List.mem_cons_of_mem _ hm, hgv, hte, hess, hnts⟩
          · rintro (hacc | ⟨v, s, t, hm, hgv, hte, hess, hnts⟩)
            · exact Or.inl (Or.inl hacc)
            · rcases List.mem_cons.mp hm with heq | hm'
              · obtain ⟨h1, h2⟩ : v = key ∧ s = eset :=
                  ⟨congrArg Prod.fst heq, congrArg Prod.snd heq⟩
                subst h1
                subst h2
                rw [hg] at hgv
                rw [← Option.some.inj hgv] at hnts
                exact Or.inl (Or.inr ⟨hess, hnts⟩)
              · exact Or.inr ⟨v, s, t, hm', hgv, hte, hess, hnts⟩
        · cases hee : eset.isEmpty with
          | true =>
            rw [isEmpty_iff_nil] at hee
            subst hee
            have hno : add_values_to_sets nset ([] : List Nat) n2e = n2e := by
              simp [add_values_to_sets]
            rw [ih2, hno]
            apply or_congr_right
            constructor
            · rintro ⟨v, s, t, hm, hgv, hte, hess, hnts⟩
              exact ⟨v, s, t, List.mem_cons_of_mem _ hm, hgv, hte, hess, hnts⟩
            · rintro ⟨v, s, t, hm, hgv, hte, hess, hnts⟩
              rcases List.mem_cons.mp hm with heq | hm'
              · obtain ⟨h1, h2⟩ : v = key ∧ s = ([] : List Nat) :=
                  ⟨congrArg Prod.fst heq, congrArg Prod.snd heq⟩
                rw [h2] at hess
                exact absurd hess (by simp)
              · exact ⟨v, s, t, hm', hgv, hte, hess, hnts⟩
          | false =>
            rw [ih2, memDict_avs hee]
            constructor
            · rintro ((hacc | ⟨hnt, hes⟩) | ⟨v, s, t, hm, hgv, hte, hess, hnts⟩)
              · exact Or.inl hacc
              · exact Or.inr ⟨key, eset, nset, List.mem_cons_self _ _, hg, hne, hes, hnt⟩
              · exact Or.inr ⟨v, s, t, List.mem_cons_of_mem _ hm, hgv, hte, hess, hnts⟩
            · rintro (hacc | ⟨v, s, t, hm, hgv, hte, hess, hnts⟩)
              · exact Or.inl (Or.inl hacc)
              · rcases List.mem_cons.mp hm with heq | hm'
                · obtain ⟨h1, h2⟩ : v = key ∧ s = eset :=
                    ⟨congrArg Prod.fst heq, congrArg Prod.snd heq⟩
                  subst h1
                  subst h2
                  rw [hg] at hgv
                  rw [← Option.some.inj hgv] at hnts
                  exact Or.inl (Or.inr ⟨hnts, hess⟩)
                · exact Or.inr ⟨v, s, t, hm', hgv, hte, hess, hnts⟩

theorem match_records_mem (evm nvm : ValDict) (e n : Nat) :
    memDictB (match_records evm nvm).1 e n = true ↔
      ∃ v s t, (v, s) ∈ evm ∧ dictGet nvm v = some t ∧ t ≠ [] ∧ e ∈ s ∧ n ∈ t := by
  unfold match_records
  rw [(mrl_mem nvm evm [] [] e n).1]
  simp [memDictB, dictGet]

theorem match_records_mem2 (evm nvm : ValDict) (e n : Nat) :
    memDictB (match_records evm nvm).2 n e = true ↔
      ∃ v s t, (v, s) ∈ evm ∧ dictGet nvm v = some t ∧ t ≠ [] ∧ e ∈ s ∧ n ∈ t := by
  unfold match_records
  rw [(mrl_mem nvm evm [] [] e n).2]
  simp [memDictB, dictGet]

theorem match_records_mirror (evm nvm : ValDict) :
    isMirror (match_records evm nvm).1 (match_records evm nvm).2 := by
  intro e n
  apply bool_eq_of_iff
  rw [match_records_mem, match_records_mem2]

theorem mrl_wf (nvm : ValDict) :
    ∀ (evm : ValDict) (e2n n2e : EdgeDict),
    keysNodup e2n → valuesNE e2n → keysNodup n2e → valuesNE n2e →
    keysNodup (match_records_loop nvm evm e2n n2e).1 ∧
    valuesNE (match_records_loop nvm evm e2n n2e).1 ∧
    keysNodup (match_records_loop nvm evm e2n n2e).2 ∧
    valuesNE (match_records_loop nvm evm e2n n2e).2
  | [], e2n, n2e, h1, h2, h3, h4 => ⟨h1, h2, h3, h4⟩
  | (key, eset) :: rest, e2n, n2e, h1, h2, h3, h4 => by
    simp only [match_records_loop]
    cases hg : dictGet nvm key with
    | none => exact mrl_wf nvm rest e2n n2e h1 h2 h3 h4
    | some nset =>
      cases hse : nset.isEmpty with
      | true =>
        simp only [hse, Bool.not_true, Bool.false_eq_true, if_false]
        exact mrl_wf nvm rest e2n n2e h1 h2 h3 h4
      | false =>
        simp only [hse, Bool.not_false, if_pos trivial]
        have hne : nset ≠ [] := fun hc => by rw [hc] at hse; simp at hse
        refine mrl_wf nvm rest _ _ ?_ ?_ ?_ ?_
        · exact keysNodup_avs eset e2n h1
        · exact valuesNE_avs hne eset e2n h2
        · exact keysNodup_avs nset n2e h3
        · by_cases hee : eset.isEmpty
          · rw [isEmpty_iff_nil] at hee
            subst hee
            simpa [add_values_to_sets] using h4
          · exact valuesNE_avs (fun hc => hee (by simp [hc])) nset n2e h4

theorem match_records_wf (evm nvm : ValDict) :
    keysNodup (match_records evm nvm).1 ∧ valuesNE (match_records evm nvm).1 ∧
    keysNodup (match_records evm nvm).2 ∧ valuesNE (match_records evm nvm).2 :=
  mrl_wf nvm evm [] [] (by simp [keysNodup]) (by simp [valuesNE])
    (by simp [keysNodup]) (by simp [valuesNE])

/-! ## `intersect_edges` characterization -/

theorem intersect_two_nil (d2 : EdgeDict) : intersect_two [] d2 = [] := rfl

theorem intersect_two_cons_none {k : Nat} {v : List Nat} {rest d2 : EdgeDict}
    (hgd : dictGet d2 k = none) :
    intersect_two ((k, v) :: rest) d2 = intersect_two rest d2 := by
  unfold intersect_two
  simp [List.filterMap_cons, hgd]

theorem intersect_two_cons_drop {k : Nat} {v v2 : List Nat} {rest d2 : EdgeDict}
    (hgd : dictGet d2 k = some v2) (hie : setInter v v2 = []) :
    intersect_two ((k, v) :: rest) d2 = intersect_two rest d2 := by
  unfold intersect_two
  simp [List.filterMap_cons, hgd, hie]

theorem intersect_two_cons_keep {k : Nat} {v v2 : List Nat} {rest d2 : EdgeDict}
    (hgd : dictGet d2 k = some v2) (hie : setInter v v2 ≠ []) :
    intersect_two ((k, v) :: rest) d2
      = (k, setInter v v2) :: intersect_two rest d2 := by
  unfold intersect_two
  simp [List.filterMap_cons, hgd, hie]

theorem keys_intersect_two_sub (d2 : EdgeDict) :
    ∀ (d1 : EdgeDict) (k : Nat),
    k ∈ (intersect_two d1 d2).map Prod.fst → k ∈ d1.map Prod.fst
  | [], k => by simp [intersect_two_nil]
  | (k0, v) :: rest, k => by
    intro hk
    rcases hgd : dictGet d2 k0 with _ | v2
    · rw [intersect_two_cons_none hgd] at hk
      exact List.mem_map.mpr (by
        obtain ⟨p, hp, hpk⟩ := List.mem_map.mp (keys_intersect_two_sub d2 rest k hk)
        exact ⟨p, List.mem_cons_of_mem _ hp, hpk⟩)
    · by_cases hie : setInter v v2 = []
      · rw [intersect_two_cons_drop hgd hie] at hk
        obtain ⟨p, hp, hpk⟩ := List.mem_map.mp (keys_intersect_two_sub d2 rest k hk)
        exact List.mem_map.mpr ⟨p, List.mem_cons_of_mem _ hp, hpk⟩
      · rw [intersect_two_cons_keep hgd hie] at hk
        simp only [List.map_cons, List.mem_cons] at hk ⊢
        rcases hk with heq | hk'
        · exact Or.inl heq
        · exact Or.inr (keys_intersect_two_sub d2 rest k hk')

theorem keysNodup_intersect_two (d2 : EdgeDict) :
    ∀ {d1 : EdgeDict}, keysNodup d1 → keysNodup (intersect_two d1 d2)
  | [], _ => by simp [intersect_two_nil, keysNodup]
  | (k0, v) :: rest, hnd => by
    simp only [keysNodup, List.map_cons, List.nodup_cons] at hnd
    rcases hgd : dictGet d2 k0 with _ | v2
    · rw [intersect_two_cons_none hgd]
      exact keysNodup_intersect_two d2 hnd.2
    · by_cases hie : setInter v v2 = []
      · rw [intersect_two_cons_drop hgd hie]
        exact keysNodup_intersect_two d2 hnd.2
      · rw [intersect_two_cons_keep hgd hie]
        simp only [keysNodup, List.map_cons, List.nodup_cons]
        exact ⟨fun hc => hnd.1 (keys_intersect_two_sub d2 rest _ hc),
          keysNodup_intersect_two d2 hnd.2⟩

theorem valuesNE_intersect_two (d2 : EdgeDict) :
    ∀ (d1 : EdgeDict), valuesNE (intersect_two d1 d2)
  | [] => by simp [intersect_two_nil, valuesNE]
  | (k0, v) :: rest => by
    rcases hgd : dictGet d2 k0 with _ | v2
    · rw [intersect_two_cons_none hgd]
      exact valuesNE_intersect_two d2 rest
    · by_cases hie : setInter v v2 = []
      · rw [intersect_two_cons_drop hgd hie]
        exact valuesNE_intersect_two d2 rest
      · rw [intersect_two_cons_keep hgd hie]
        intro p hp
        rcases List.mem_cons.mp hp with heq | hm
        · subst heq
          exact hie
        · exact valuesNE_intersect_two d2 rest p hm

theorem memDict_intersect_two (d2 : EdgeDict) (e n : Nat) :
    ∀ (d1 : EdgeDict), keysNodup d1 →
    (memDictB (intersect_two d1 d2) e n = true ↔
      memDictB d1 e n = true ∧ memDictB d2 e n = true)
  | [], _ => by simp [intersect_two_nil, memDictB, dictGet]
  | (k, v) :: rest, hnd => by
    simp only [keysNodup, List.map_cons, List.nodup_cons] at hnd
    have ihr := memDict_intersect_two d2 e n rest hnd.2
    rcases hgd : dictGet d2 k with _ | v2
    · rw [intersect_two_cons_none hgd]
      by_cases hek : e = k
      · subst hek
        constructor
        · intro hmem
          unfold memDictB at hmem
          cases hgg : dictGet (intersect_two rest d2) e with
          | none => rw [hgg] at hmem; simp at hmem
          | some s =>
            exact absurd (hnd.1 (keys_intersect_two_sub d2 rest _
              (mem_keys_of_dictGet hgg))) (by simp)
        · rintro ⟨_, hm2⟩
          unfold memDictB at hm2
          rw [hgd] at hm2
          simp at hm2
      · rw [ihr]
        unfold memDictB
        simp only [dictGet, if_neg (fun hc : k = e => hek hc.symm)]
    · by_cases hie : setInter v v2 = []
      · rw [intersect_two_cons_drop hgd hie]
        by_cases hek : e = k
        · subst hek
          constructor
          · intro hmem
            unfold memDictB at hmem
            cases hgg : dictGet (intersect_two rest d2) e with
            | none => rw [hgg] at hmem; simp at hmem
            | some s =>
              exact absurd (hnd.1 (keys_intersect_two_sub d2 rest _
                (mem_keys_of_dictGet hgg))) (by simp)
          · rintro ⟨hm1, hm2⟩
            unfold memDictB at hm1 hm2
            rw [hgd] at hm2
            simp only [dictGet, if_pos rfl] at hm1
            have : n ∈ setInter v v2 := mem_setInter.mpr
              ⟨contains_iff.mp hm1, contains_iff.mp hm2⟩
            rw [hie] at this
            simp at this
        · rw [ihr]
          unfold memDictB
          simp only [dictGet, if_neg (fun hc : k = e => hek hc.symm)]
      · rw [intersect_two_cons_keep hgd hie]
        by_cases hek : e = k
        · subst hek
          unfold memDictB
          simp only [dictGet, if_pos rfl]
          rw [hgd]
          simp [contains_iff, mem_setInter]
        · unfold memDictB at ihr ⊢
          simp only [dictGet, if_neg (fun hc : k = e => hek hc.symm)]
          exact ihr

theorem memDict_intersect_fold : ∀ (rest : List EdgeDict) (d : EdgeDict),
    keysNodup d → ∀ e n,
    memDictB (intersect_fold d rest) e n = true ↔
      memDictB d e n = true ∧ ∀ d2 ∈ rest, memDictB d2 e n = true
  | [], d, _, e, n => by simp [intersect_fold]
  | d2 :: rest, d, hnd, e, n => by
    simp only [intersect_fold]
    rw [memDict_intersect_fold rest _ (keysNodup_intersect_two d2 hnd) e n,
      memDict_intersect_two d2 e n d hnd]
    simp only [List.mem_cons]
    constructor
    · rintro ⟨⟨h1, h2⟩, h3⟩
      exact ⟨h1, fun dd hdd => by
        rcases hdd with rfl | hdd
        · exact h2
        · exact h3 dd hdd⟩
    · rintro ⟨h1, h2⟩
      exact ⟨⟨h1, h2 d2 (Or.inl rfl)⟩, fun dd hdd => h2 dd (Or.inr hdd)⟩

theorem keysNodup_intersect_fold : ∀ (rest : List EdgeDict) {d : EdgeDict},
    keysNodup d → keysNodup (intersect_fold d rest)
  | [], _, hnd => hnd
  | d2 :: rest, _, hnd =>
    keysNodup_intersect_fold rest (keysNodup_intersect_two d2 hnd)

theorem valuesNE_intersect_fold : ∀ (rest : List EdgeDict) (d : EdgeDict),
    valuesNE d → valuesNE (intersect_fold d rest)
  | [], _, hv => hv
  | d2 :: rest, d, _ =>
    valuesNE_intersect_fold rest _ (valuesNE_intersect_two d2 d)

/-! ## Pruning characterization -/

theorem memDict_not_mem_keys {κ : Type} [DecidableEq κ] {d : List (κ × List Nat)}
    {k : κ} (h : k ∉ d.map Prod.fst) (x : Nat) : memDictB d k x = false := by
  unfold memDictB
  rw [dictGet_eq_none.mpr h]

theorem dictGet_dictDel_self {κ : Type} [DecidableEq κ] {key : κ} :
    ∀ {d : List (κ × List Nat)}, keysNodup d → dictGet (dictDel d key) key = none := by
  intro d
  induction d with
  | nil => intro _; rfl
  | cons p rest ih =>
    obtain ⟨k0, v0⟩ := p
    intro hnd
    simp only [keysNodup, List.map_cons, List.nodup_cons] at hnd
    simp only [dictDel]
    by_cases h0 : k0 = key
    · rw [if_pos h0]
      subst h0
      exact dictGet_eq_none.mpr hnd.1
    · rw [if_neg h0]
      simp only [dictGet, if_neg h0]
      exact ih hnd.2

theorem prune_edges_cons (all : EdgeDict) (key : Nat) (value : List Nat)
    (rest : EdgeDict) :
    prune_edges all ((key, value) :: rest)
      = prune_edges
          (match dictGet all key with
            | some edge =>
              if edge.isEmpty then all
              else
                if (setDiff edge value).isEmpty then dictDel all key
                else dictSet all key (setDiff edge value)
            | none => all)
          rest := rfl

theorem memDict_prune_step {all : EdgeDict} {key : Nat} {value : List Nat}
    (hnd : keysNodup all) (k x : Nat) :
    memDictB
      (match dictGet all key with
        | some edge =>
          if edge.isEmpty then all
          else
            if (setDiff edge value).isEmpty then dictDel all key
            else dictSet all key (setDiff edge value)
        | none => all) k x = true
    ↔ memDictB all k x = true ∧ ¬ (k = key ∧ x ∈ value) := by
  cases hg : dictGet all key with
  | none =>
    by_cases hk : k = key
    · subst hk
      simp [memDictB, hg]
    · simp [hk]
  | some edge =>
    show memDictB
        (if edge.isEmpty then all
          else
            if (setDiff edge value).isEmpty then dictDel all key
            else dictSet all key (setDiff edge value)) k x = true
      ↔ memDictB all k x = true ∧ ¬ (k = key ∧ x ∈ value)
    by_cases hee : edge.isEmpty
    · rw [if_pos hee]
      rw [isEmpty_iff_nil] at hee
      subst hee
      by_cases hk : k = key
      · subst hk
        simp [memDictB, hg]
      · simp [hk]
    · rw [if_neg hee]
      by_cases hde : (setDiff edge value).isEmpty
      · rw [if_pos hde]
        rw [isEmpty_iff_nil] at hde
        by_cases hk : k = key
        · subst hk
          have hLHS : memDictB (dictDel all k) k x = false := by
            simp [memDictB, dictGet_dictDel_self hnd]
          rw [hLHS]
          constructor
          · intro hc
            exact absurd hc (by simp)
          · rintro ⟨hm, hnx⟩
            have hxe : x ∈ edge := by
              have h2 := hm
              simp only [memDictB, hg] at h2
              exact contains_iff.mp h2
            have hxv : x ∈ value := by
              by_contra hxv
              have hmm : x ∈ setDiff edge value := mem_setDiff.mpr ⟨hxe, hxv⟩
              rw [hde] at hmm
              simp at hmm
            exact (hnx ⟨rfl, hxv⟩).elim
        · have hL : memDictB (dictDel all key) k x = memDictB all k x := by
            unfold memDictB
            rw [dictGet_dictDel key k hk]
          rw [hL]
          simp [hk]
      · rw [if_neg hde]
        by_cases hk : k = key
        · subst hk
          have hL : memDictB (dictSet all k (setDiff edge value)) k x = true
              ↔ x ∈ edge ∧ x ∉ value := by
            unfold memDictB
            rw [dictGet_dictSet, if_pos rfl]
            simp [contains_iff, mem_setDiff]
          rw [hL]
          have hR : memDictB all k x = true ↔ x ∈ edge := by
            unfold memDictB
            rw [hg]
            simp [contains_iff]
          rw [hR]
          constructor
          · rintro ⟨h1, h2⟩
            exact ⟨h1, fun hc => h2 hc.2⟩
          · rintro ⟨h1, h2⟩
            exact ⟨h1, fun hc => h2 ⟨rfl, hc⟩⟩
        · have hL : memDictB (dictSet all key (setDiff edge value)) k x
              = memDictB all k x := by
            unfold memDictB
            rw [dictGet_dictSet, if_neg hk]
          rw [hL]
          simp [hk]

theorem keysNodup_prune_step {all : EdgeDict} {key : Nat} {value : List Nat}
    (hnd : keysNodup all) :
    keysNodup
      (match dictGet all key with
        | some edge =>
          if edge.isEmpty then all
          else
            if (setDiff edge value).isEmpty then dictDel all key
            else dictSet all key (setDiff edge value)
        | none => all) := by
  cases dictGet all key with
  | none => exact hnd
  | some edge =>
    show keysNodup
      (if edge.isEmpty then all
        else
          if (setDiff edge value).isEmpty then dictDel all key
          else dictSet all key (setDiff edge value))
    by_cases hee : edge.isEmpty
    · rw [if_pos hee]; exact hnd
    · rw [if_neg hee]
      by_cases hde : (setDiff edge value).isEmpty
      · rw [if_pos hde]; exact keysNodup_dictDel hnd
      · rw [if_neg hde]; exact keysNodup_dictSet hnd

theorem memDict_prune_edges : ∀ (tod all : EdgeDict), keysNodup all → keysNodup tod →
    ∀ k x, memDictB (prune_edges all tod) k x = true ↔
      memDictB all k x = true ∧ memDictB tod k x = false
  | [], all, _, _, k, x => by simp [prune_edges, memDictB, dictGet]
  | (key, value) :: rest, all, hnda, hndt, k, x => by
    simp only [keysNodup, List.map_cons, List.nodup_cons] at hndt
    rw [prune_edges_cons,
      memDict_prune_edges rest _ (keysNodup_prune_step hnda) hndt.2 k x,
      memDict_prune_step hnda k x]
    by_cases hk : k = key
    · subst hk
      have hrest : memDictB rest k x = false :=
        memDict_not_mem_keys (by exact hndt.1) x
      rw [hrest]
      have hto : memDictB ((k, value) :: rest) k x = true ↔ x ∈ value := by
        unfold memDictB
        simp [dictGet, contains_iff]
      constructor
      · rintro ⟨⟨h1, h2⟩, _⟩
        refine ⟨h1, ?_⟩
        cases hb : memDictB ((k, value) :: rest) k x
        · rfl
        · exact absurd (hto.mp hb) (fun hv => h2 ⟨rfl, hv⟩)
      · rintro ⟨h1, h2⟩
        refine ⟨⟨h1, fun hc => ?_⟩, rfl⟩
        rw [hto.mpr hc.2] at h2
        exact Bool.noConfusion h2
    · have hto : memDictB ((key, value) :: rest) k x = memDictB rest k x := by
        unfold memDictB
        simp only [dictGet, if_neg (fun hc : key = k => hk hc.symm)]
      rw [hto]
      constructor
      · rintro ⟨⟨h1, _⟩, h2⟩
        exact ⟨h1, h2⟩
      · rintro ⟨h1, h2⟩
        exact ⟨⟨h1, fun hc => hk hc.1⟩, h2⟩

theorem keysNodup_prune_edges : ∀ (tod all : EdgeDict), keysNodup all →
    keysNodup (prune_edges all tod)
  | [], all, hnd => hnd
  | (key, value) :: rest, all, hnd => by
    rw [prune_edges_cons]
    exact keysNodup_prune_edges rest _ (keysNodup_prune_step hnd)

/-! ## `prune_to_unique_edges` characterization -/

theorem memDict_collect : ∀ (d : EdgeDict) (own other : EdgeDict) (k x : Nat),
    (memDictB (collect_pruned d (own, other)).1 k x = true ↔
      memDictB own k x = true ∨ ∃ v, (k, v) ∈ d ∧ 1 < v.length ∧ x ∈ v) ∧
    (memDictB (collect_pruned d (own, other)).2 k x = true ↔
      memDictB other k x = true ∨ ∃ v, (x, v) ∈ d ∧ 1 < v.length ∧ k ∈ v)
  | [], own, other, k, x => by
    constructor
    · simp [collect_pruned]
    · simp [collect_pruned]
  | (key, value) :: rest, own, other, k, x => by
    simp only [collect_pruned]
    by_cases hlen : 1 < value.length
    · rw [if_pos hlen]
      have hvne : value.isEmpty = false := by
        cases value
        · simp at hlen
        · rfl
      have ih := memDict_collect rest (add_values_to_sets [key] value own)
        (add_values_to_sets value [key] other) k x
      constructor
      · rw [ih.1, memDict_avs hvne [key] own k x]
        constructor
        · rintro ((h | ⟨hk, hx⟩) | ⟨v, hv, hl, hx⟩)
          · exact Or.inl h
          · refine Or.inr ⟨value, ?_, hlen, hx⟩
            have hk' : k = key := by simpa using hk
            subst hk'
            exact List.mem_cons_self _ _
          · exact Or.inr ⟨v, List.mem_cons_of_mem _ hv, hl, hx⟩
        · rintro (h | ⟨v, hv, hl, hx⟩)
          · exact Or.inl (Or.inl h)
          · rcases List.mem_cons.mp hv with heq | hv'
            · obtain ⟨h1, h2⟩ : k = key ∧ v = value :=
                ⟨congrArg Prod.fst heq, congrArg Prod.snd heq⟩
              subst h1; subst h2
              exact Or.inl (Or.inr ⟨by simp, hx⟩)
            · exact Or.inr ⟨v, hv', hl, hx⟩
      · rw [ih.2, memDict_avs (show ([key] : List Nat).isEmpty = false from rfl)
          value other k x]
        constructor
        · rintro ((h | ⟨hk, hx⟩) | ⟨v, hv, hl, hx⟩)
          · exact Or.inl h
          · refine Or.inr ⟨value, ?_, hlen, hk⟩
            have hx' : x = key := by simpa using hx
            subst hx'
            exact List.mem_cons_self _ _
          · exact Or.inr ⟨v, List.mem_cons_of_mem _ hv, hl, hx⟩
        · rintro (h | ⟨v, hv, hl, hx⟩)
          · exact Or.inl (Or.inl h)
          · rcases List.mem_cons.mp hv with heq | hv'
            · obtain ⟨h1, h2⟩ : x = key ∧ v = value :=
                ⟨congrArg Prod.fst heq, congrArg Prod.snd heq⟩
              subst h1; subst h2
              exact Or.inl (Or.inr ⟨hx, by simp⟩)
            · exact Or.inr ⟨v, hv', hl, hx⟩
    · rw [if_neg hlen]
      have ih := memDict_collect rest own other k x
      constructor
      · rw [ih.1]
        constructor
        · rintro (h | ⟨v, hv, hl, hx⟩)
          · exact Or.inl h
          · exact Or.inr ⟨v, List.mem_cons_of_mem _ hv, hl, hx⟩
        · rintro (h | ⟨v, hv, hl, hx⟩)
          · exact Or.inl h
          · rcases List.mem_cons.mp hv with heq | hv'
            · obtain h2 : v = value := congrArg Prod.snd heq
              subst h2
              exact absurd hl hlen
            · exact Or.inr ⟨v, hv', hl, hx⟩
      · rw [ih.2]
        constructor
        · rintro (h | ⟨v, hv, hl, hx⟩)
          · exact Or.inl h
          · exact Or.inr ⟨v, List.mem_cons_of_mem _ hv, hl, hx⟩
        · rintro (h | ⟨v, hv, hl, hx⟩)
          · exact Or.inl h
          · rcases List.mem_cons.mp hv with heq | hv'
            · obtain h2 : v = value := congrArg Prod.snd heq
              subst h2
              exact absurd hl hlen
            · exact Or.inr ⟨v, hv', hl, hx⟩

theorem collect_pruned_wf : ∀ (d : EdgeDict) (own other : EdgeDict),
    keysNodup own → valuesNE own → keysNodup other → valuesNE other →
    keysNodup (collect_pruned d (own, other)).1 ∧
    valuesNE (collect_pruned d (own, other)).1 ∧
    keysNodup (collect_pruned d (own, other)).2 ∧
    valuesNE (collect_pruned d (own, other)).2
  | [], own, other, h1, h2, h3, h4 => ⟨h1, h2, h3, h4⟩
  | (key, value) :: rest, own, other, h1, h2, h3, h4 => by
    simp only [collect_pruned]
    by_cases hlen : 1 < value.length
    · rw [if_pos hlen]
      have hvne : value ≠ [] := by
        cases value
        · simp at hlen
        · simp
      exact collect_pruned_wf rest _ _ (keysNodup_avs _ _ h1)
        (valuesNE_avs hvne _ _ h2) (keysNodup_avs _ _ h3)
        (valuesNE_avs (by simp) _ _ h4)
    · rw [if_neg hlen]
      exact collect_pruned_wf rest own other h1 h2 h3 h4

theorem memDict_nil (k x : Nat) : memDictB ([] : EdgeDict) k x = false := rfl

theorem ptu_pruned_e2n_mem (st : MState) (e n : Nat) :
    memDictB (prune_to_unique_edges st).1.2 e n = true ↔
      (st.existing_to_new_unique = true ∧
        ∃ v, (e, v) ∈ st.existing_to_new_edges.headD [] ∧ 1 < v.length ∧ n ∈ v) ∨
      (st.new_to_existing_unique = true ∧
        ∃ v, (n, v) ∈ st.new_to_existing_edges.headD [] ∧ 1 < v.length ∧ e ∈ v) := by
  simp only [prune_to_unique_edges]
  by_cases h1 : st.existing_to_new_unique = true <;>
    by_cases h2 : st.new_to_existing_unique = true
  · rw [if_pos h1, if_pos h2]
    rw [(memDict_collect (st.new_to_existing_edges.headD [])
        (collect_pruned (st.existing_to_new_edges.headD []) ([], [])).2
        (collect_pruned (st.existing_to_new_edges.headD []) ([], [])).1 e n).2,
      (memDict_collect (st.existing_to_new_edges.headD []) [] [] e n).1]
    simp [memDict_nil, h1, h2, or_comm]
  · rw [if_pos h1, if_neg h2]
    rw [(memDict_collect (st.existing_to_new_edges.headD []) [] [] e n).1]
    simp [memDict_nil, h1, h2]
  · rw [if_neg h1, if_pos h2]
    rw [(memDict_collect (st.new_to_existing_edges.headD []) [] [] e n).2]
    simp [memDict_nil, h1, h2]
  · rw [if_neg h1, if_neg h2]
    simp [memDict_nil, h1, h2]

theorem ptu_pruned_n2e_mem (st : MState) (k x : Nat) :
    memDictB (prune_to_unique_edges st).1.1 k x = true ↔
      (st.new_to_existing_unique = true ∧
        ∃ v, (k, v) ∈ st.new_to_existing_edges.headD [] ∧ 1 < v.length ∧ x ∈ v) ∨
      (st.existing_to_new_unique = true ∧
        ∃ v, (x, v) ∈ st.existing_to_new_edges.headD [] ∧ 1 < v.length ∧ k ∈ v) := by
  simp only [prune_to_unique_edges]
  by_cases h1 : st.existing_to_new_unique = true <;>
    by_cases h2 : st.new_to_existing_unique = true
  · rw [if_pos h1, if_pos h2]
    rw [(memDict_collect (st.new_to_existing_edges.headD [])
        (collect_pruned (st.existing_to_new_edges.headD []) ([], [])).2
        (collect_pruned (st.existing_to_new_edges.headD []) ([], [])).1 k x).1,
      (memDict_collect (st.existing_to_new_edges.headD []) [] [] k x).2]
    simp [memDict_nil, h1, h2, or_comm]
  · rw [if_pos h1, if_neg h2]
    rw [(memDict_collect (st.existing_to_new_edges.headD []) [] [] k x).2]
    simp [memDict_nil, h1, h2]
  · rw [if_neg h1, if_pos h2]
    rw [(memDict_collect (st.new_to_existing_edges.headD []) [] [] k x).1]
    simp [memDict_nil, h1, h2]
  · rw [if_neg h1, if_neg h2]
    simp [memDict_nil, h1, h2]

theorem ptu_mirror (st : MState) :
    isMirror (prune_to_unique_edges st).1.1 (prune_to_unique_edges st).1.2 := by
  intro e n
  apply bool_eq_of_iff
  rw [ptu_pruned_n2e_mem, ptu_pruned_e2n_mem]
  exact or_comm

theorem ptu_pruned_wf (st : MState) :
    (keysNodup (prune_to_unique_edges st).1.1 ∧
      valuesNE (prune_to_unique_edges st).1.1) ∧
    keysNodup (prune_to_unique_edges st).1.2 ∧
    valuesNE (prune_to_unique_edges st).1.2 := by
  simp only [prune_to_unique_edges]
  have hwfE := collect_pruned_wf (st.existing_to_new_edges.headD []) [] []
    (by simp [keysNodup]) (by simp [valuesNE]) (by simp [keysNodup]) (by simp [valuesNE])
  by_cases h1 : st.existing_to_new_unique = true <;>
    by_cases h2 : st.new_to_existing_unique = true
  · rw [if_pos h1, if_pos h2]
    have hwfN := collect_pruned_wf (st.new_to_existing_edges.headD [])
      (collect_pruned (st.existing_to_new_edges.headD []) ([], [])).2
      (collect_pruned (st.existing_to_new_edges.headD []) ([], [])).1
      hwfE.2.2.1 hwfE.2.2.2 hwfE.1 hwfE.2.1
    exact ⟨⟨hwfN.1, hwfN.2.1⟩, hwfN.2.2.1, hwfN.2.2.2⟩
  · rw [if_pos h1, if_neg h2]
    exact ⟨⟨hwfE.2.2.1, hwfE.2.2.2⟩, hwfE.1, hwfE.2.1⟩
  · rw [if_neg h1, if_pos h2]
    have hwfN := collect_pruned_wf (st.new_to_existing_edges.headD []) [] []
      (by simp [keysNodup]) (by simp [valuesNE]) (by simp [keysNodup]) (by simp [valuesNE])
    exact ⟨⟨hwfN.1, hwfN.2.1⟩, hwfN.2.2.1, hwfN.2.2.2⟩
  · rw [if_neg h1, if_neg h2]
    refine ⟨⟨by simp [keysNodup], by simp [valuesNE]⟩,
      by simp [keysNodup], by simp [valuesNE]⟩

theorem ptu_applied_eq (st : MState) :
    (prune_to_unique_edges st).2.1
      = prune_edges (st.existing_to_new_edges.headD [])
          (prune_to_unique_edges st).1.2 := rfl

theorem ptu_applied_mem (st : MState)
    (hE : keysNodup (st.existing_to_new_edges.headD [])) (e n : Nat) :
    memDictB (prune_to_unique_edges st).2.1 e n = true ↔
      memDictB (st.existing_to_new_edges.headD []) e n = true ∧
      memDictB (prune_to_unique_edges st).1.2 e n = false := by
  rw [ptu_applied_eq]
  exact memDict_prune_edges (prune_to_unique_edges st).1.2
    (st.existing_to_new_edges.headD []) hE ((ptu_pruned_wf st).2.1) e n

theorem applied_unique_e2n (st : MState)
    (hE : keysNodup (st.existing_to_new_edges.headD []))
    (hflag : st.existing_to_new_unique = true) (e n n' : Nat)
    (h1 : memDictB (prune_to_unique_edges st).2.1 e n = true)
    (h2 : memDictB (prune_to_unique_edges st).2.1 e n' = true) : n = n' := by
  rw [ptu_applied_mem st hE] at h1 h2
  by_contra hne
  obtain ⟨hEn, hp⟩ := h1
  obtain ⟨hEn', _⟩ := h2
  cases hg : dictGet (st.existing_to_new_edges.headD []) e with
  | none =>
    simp only [memDictB, hg] at hEn
    exact Bool.noConfusion hEn
  | some v =>
    simp only [memDictB, hg] at hEn hEn'
    have hnv : n ∈ v := contains_iff.mp hEn
    have hnv' : n' ∈ v := contains_iff.mp hEn'
    have hlen : 1 < v.length := two_mem_two_le_length hnv hnv' hne
    have hmem : memDictB (prune_to_unique_edges st).1.2 e n = true := by
      rw [ptu_pruned_e2n_mem]
      exact Or.inl ⟨hflag, v, dictGet_mem hg, hlen, hnv⟩
    rw [hmem] at hp
    exact Bool.noConfusion hp

theorem applied_unique_n2e (st : MState)
    (hE : keysNodup (st.existing_to_new_edges.headD []))
    (hN : keysNodup (st.new_to_existing_edges.headD []))
    (hM : isMirror (st.existing_to_new_edges.headD [])
      (st.new_to_existing_edges.headD []))
    (hflag : st.new_to_existing_unique = true) (e e' n : Nat)
    (h1 : memDictB (prune_to_unique_edges st).2.1 e n = true)
    (h2 : memDictB (prune_to_unique_edges st).2.1 e' n = true) : e = e' := by
  rw [ptu_applied_mem st hE] at h1 h2
  by_contra hne
  obtain ⟨hEn, hp⟩ := h1
  obtain ⟨hEn', _⟩ := h2
  have hNn : memDictB (st.new_to_existing_edges.headD []) n e = true := by
    rw [← hM e n]; exact hEn
  have hNn' : memDictB (st.new_to_existing_edges.headD []) n e' = true := by
    rw [← hM e' n]; exact hEn'
  cases hg : dictGet (st.new_to_existing_edges.headD []) n with
  | none =>
    simp only [memDictB, hg] at hNn
    exact Bool.noConfusion hNn
  | some w =>
    simp only [memDictB, hg] at hNn hNn'
    have hev : e ∈ w := contains_iff.mp hNn
    have hev' : e' ∈ w := contains_iff.mp hNn'
    have hlen : 1 < w.length := two_mem_two_le_length hev hev' hne
    have hmem : memDictB (prune_to_unique_edges st).1.2 e n = true := by
      rw [ptu_pruned_e2n_mem]
      exact Or.inr ⟨hflag, w, dictGet_mem hg, hlen, hev⟩
    rw [hmem] at hp
    exact Bool.noConfusion hp

/-! ## The orchestration invariant -/

theorem mirror_symm {P Q : EdgeDict} (h : isMirror P Q) : isMirror Q P :=
  fun e n => (h n e).symm

theorem forall2_append_one {R : EdgeDict → EdgeDict → Prop} :
    ∀ {l1 l2 : List EdgeDict}, List.Forall₂ R l1 l2 → ∀ {a b : EdgeDict}, R a b →
    List.Forall₂ R (l1 ++ [a]) (l2 ++ [b]) := by
  intro l1 l2 h
  induction h with
  | nil =>
    intro a b hab
    exact List.Forall₂.cons hab List.Forall₂.nil
  | cons hr _ ih =>
    intro a b hab
    exact List.Forall₂.cons hr (ih hab)

theorem join_records_ok_wf {st st1 : MState} {p : List String}
    (h : join_records st p = .ok st1) (hwf : tablesWF st) : tablesWF st1 := by
  unfold join_records at h
  rw [bind_eq_ok'] at h
  obtain ⟨keys, _, h⟩ := h
  rw [bind_eq_ok'] at h
  obtain ⟨evm, _, h⟩ := h
  rw [bind_eq_ok'] at h
  obtain ⟨nvm, _, h⟩ := h
  rw [← Except.ok.inj h]
  show List.Forall₂ tableR
    (st.existing_to_new_edges ++ [(match_records evm nvm).1])
    (st.new_to_existing_edges ++ [(match_records evm nvm).2])
  refine forall2_append_one hwf ?_
  have hwfm := match_records_wf evm nvm
  exact ⟨match_records_mirror evm nvm, ⟨hwfm.1, hwfm.2.1⟩, hwfm.2.2.1, hwfm.2.2.2⟩

theorem forall_mem_mirror : ∀ {Ps Qs : List EdgeDict},
    List.Forall₂ tableR Ps Qs → ∀ e n,
    ((∀ d ∈ Ps, memDictB d e n = true) ↔ (∀ q ∈ Qs, memDictB q n e = true)) := by
  intro Ps Qs h
  induction h with
  | nil => simp
  | cons hr _ ih =>
    intro e n
    simp only [List.mem_cons]
    constructor
    · intro hall q hq
      rcases hq with rfl | hq
      · rw [← hr.1 e n]
        exact hall _ (Or.inl rfl)
      · exact ((ih e n).mp (fun d hd => hall d (Or.inr hd))) q hq
    · intro hall d hd
      rcases hd with rfl | hd
      · rw [hr.1 e n]
        exact hall _ (Or.inl rfl)
      · exact ((ih e n).mpr (fun q hq => hall q (Or.inr hq))) d hd

theorem intersect_fold_mirror {P0 Q0 : EdgeDict} {Ps Qs : List EdgeDict}
    (hM : isMirror P0 Q0) (hP0 : keysNodup P0) (hQ0 : keysNodup Q0)
    (hF : List.Forall₂ tableR Ps Qs) :
    isMirror (intersect_fold P0 Ps) (intersect_fold Q0 Qs) := by
  intro e n
  apply bool_eq_of_iff
  rw [memDict_intersect_fold Ps P0 hP0 e n, memDict_intersect_fold Qs Q0 hQ0 n e,
    hM e n, forall_mem_mirror hF e n]

theorem intersect_lists_wf : ∀ {Ps Qs : List EdgeDict},
    List.Forall₂ tableR Ps Qs →
    List.Forall₂ tableR (intersect_edges Ps) (intersect_edges Qs) := by
  intro Ps Qs h
  cases h with
  | nil => exact List.Forall₂.nil
  | cons hr hrest =>
    simp only [intersect_edges]
    refine List.Forall₂.cons ?_ List.Forall₂.nil
    obtain ⟨hM, hP, hQ⟩ := hr
    exact ⟨intersect_fold_mirror hM hP.1 hQ.1 hrest,
      ⟨keysNodup_intersect_fold _ hP.1, valuesNE_intersect_fold _ _ hP.2⟩,
      keysNodup_intersect_fold _ hQ.1, valuesNE_intersect_fold _ _ hQ.2⟩

theorem intersect_state_wf (st : MState) (hwf : tablesWF st) :
    tablesWF { st with
      existing_to_new_edges := intersect_edges st.existing_to_new_edges,
      new_to_existing_edges := intersect_edges st.new_to_existing_edges } :=
  intersect_lists_wf hwf

theorem dictGet_cons_self {κ : Type} [DecidableEq κ] (k : κ) (v : List Nat)
    (rest : List (κ × List Nat)) : dictGet ((k, v) :: rest) k = some v := by
  simp [dictGet]

theorem ne_nil_has_mem {P : EdgeDict} (hv : valuesNE P) (hne : P ≠ []) :
    ∃ k x, memDictB P k x = true := by
  cases P with
  | nil => exact absurd rfl hne
  | cons p rest =>
    obtain ⟨k, v⟩ := p
    have hvne : v ≠ [] := hv (k, v) (List.mem_cons_self _ _)
    cases hvv : v with
    | nil => exact absurd hvv hvne
    | cons x xs =>
      refine ⟨k, x, ?_⟩
      simp [memDictB, dictGet_cons_self, hvv, contains_iff]

theorem mirror_nil_iff {P Q : EdgeDict} (hM : isMirror P Q)
    (hvP : valuesNE P) (hvQ : valuesNE Q) : P = [] ↔ Q = [] := by
  constructor
  · intro h
    subst h
    by_contra hQ
    obtain ⟨k, x, hm⟩ := ne_nil_has_mem hvQ hQ
    have hx := hM x k
    rw [memDict_nil, hm] at hx
    exact Bool.noConfusion hx
  · intro h
    subst h
    by_contra hP
    obtain ⟨k, x, hm⟩ := ne_nil_has_mem hvP hP
    have hx := hM k x
    rw [memDict_nil, hm] at hx
    exact Bool.noConfusion hx

theorem add_merged_ok_wf {st : MState} {p : MState × EdgeDict}
    (h : add_merged_records st = .ok p) : tablesWF p.1 := by
  obtain ⟨b1, _, hp⟩ := add_merged_ok h
  rw [hp]
  show List.Forall₂ tableR
    (if (prune_to_unique_edges st).1.2.isEmpty then []
      else [(prune_to_unique_edges st).1.2])
    (if (prune_to_unique_edges st).1.1.isEmpty then []
      else [(prune_to_unique_edges st).1.1])
  have hm := ptu_mirror st
  have hwf2 := ptu_pruned_wf st
  have hiff : (prune_to_unique_edges st).1.1 = [] ↔
      (prune_to_unique_edges st).1.2 = [] :=
    mirror_nil_iff hm hwf2.1.2 hwf2.2.2
  by_cases h12 : (prune_to_unique_edges st).1.2 = []
  · rw [if_pos (isEmpty_iff_nil.mpr h12), if_pos (isEmpty_iff_nil.mpr (hiff.mpr h12))]
    exact List.Forall₂.nil
  · rw [if_neg (fun hc => h12 (isEmpty_iff_nil.mp hc)),
      if_neg (fun hc => h12 (hiff.mp (isEmpty_iff_nil.mp hc)))]
    refine List.Forall₂.cons ⟨mirror_symm hm, ⟨hwf2.2.1, hwf2.2.2⟩, hwf2.1.1, hwf2.1.2⟩
      List.Forall₂.nil

theorem heads_of_forall2 : ∀ {Ps Qs : List EdgeDict}, List.Forall₂ tableR Ps Qs →
    isMirror (Ps.headD []) (Qs.headD []) ∧
    keysNodup (Ps.headD []) ∧ keysNodup (Qs.headD []) := by
  intro Ps Qs h
  cases h with
  | nil => exact ⟨fun e n => rfl, by simp [keysNodup], by simp [keysNodup]⟩
  | cons hr _ => exact ⟨hr.1, hr.2.1.1, hr.2.2.1⟩

theorem round_unique (st : MState) (hwf : tablesWF st) :
    (st.existing_to_new_unique = true → ∀ e n n',
      memDictB (prune_to_unique_edges st).2.1 e n = true →
      memDictB (prune_to_unique_edges st).2.1 e n' = true → n = n') ∧
    (st.new_to_existing_unique = true → ∀ e e' n,
      memDictB (prune_to_unique_edges st).2.1 e n = true →
      memDictB (prune_to_unique_edges st).2.1 e' n = true → e = e') := by
  have hh := heads_of_forall2 hwf
  exact ⟨fun hf e n n' h1 h2 => applied_unique_e2n st hh.2.1 hf e n n' h1 h2,
    fun hf e e' n h1 h2 => applied_unique_n2e st hh.2.1 hh.2.2 hh.1 hf e e' n h1 h2⟩

theorem primary_loop_wf : ∀ (fields : List (List String)) (st st' : MState),
    primary_loop st fields = .ok st' → tablesWF st → tablesWF st'
  | [], st, st', h, hwf => by
    simp only [primary_loop] at h
    rw [← Except.ok.inj h]
    exact hwf
  | pair :: rest, st, st', h, hwf => by
    simp only [primary_loop] at h
    rw [bind_eq_ok'] at h
    obtain ⟨st1, hst1, h⟩ := h
    exact primary_loop_wf rest st1 st' h (join_records_ok_wf hst1 hwf)

theorem secondary_loop_unique : ∀ (fields : List (List String)) (st : MState)
    (acc : List EdgeDict) (res : MState × List EdgeDict),
    secondary_loop st fields acc = .ok res → tablesWF st →
    ∀ d ∈ res.2, d ∈ acc ∨
      ((st.existing_to_new_unique = true → ∀ e n n', memDictB d e n = true →
          memDictB d e n' = true → n = n') ∧
       (st.new_to_existing_unique = true → ∀ e e' n, memDictB d e n = true →
          memDictB d e' n = true → e = e'))
  | [], st, acc, res, h, hwf, d, hd => by
    simp only [secondary_loop] at h
    rw [← Except.ok.inj h] at hd
    exact Or.inl hd
  | pair :: rest, st, acc, res, h, hwf, d, hd => by
    simp only [secondary_loop] at h
    by_cases hemp : st.existing_to_new_edges.isEmpty
    · rw [if_pos hemp] at h
      rw [← Except.ok.inj h] at hd
      exact Or.inl hd
    · rw [if_neg hemp] at h
      rw [bind_eq_ok'] at h
      obtain ⟨st1, hst1, h⟩ := h
      rw [bind_eq_ok'] at h
      obtain ⟨res1, hres1, h⟩ := h
      have hwf1 : tablesWF st1 := join_records_ok_wf hst1 hwf
      have hwf2 : tablesWF { st1 with
          existing_to_new_edges := intersect_edges st1.existing_to_new_edges,
          new_to_existing_edges := intersect_edges st1.new_to_existing_edges } :=
        intersect_state_wf st1 hwf1
      have hfl1 : st1.existing_to_new_unique = st.existing_to_new_unique ∧
          st1.new_to_existing_unique = st.new_to_existing_unique := by
        obtain ⟨E, N, he⟩ := join_records_ok_state hst1
        constructor <;> rw [he]
      obtain ⟨b1, hb1, hp⟩ := add_merged_ok hres1
      have hwfr : tablesWF res1.1 := add_merged_ok_wf hres1
      have hflr : res1.1.existing_to_new_unique = st.existing_to_new_unique ∧
          res1.1.new_to_existing_unique = st.new_to_existing_unique := by
        rw [hp]
        exact hfl1
      have ih := secondary_loop_unique rest res1.1 (acc ++ [res1.2]) res h hwfr d hd
      rcases ih with hmem | hu
      · rcases List.mem_append.mp hmem with hacc | hone
        · exact Or.inl hacc
        · have hde : d = res1.2 := by simpa using hone
          subst hde
          have happ : res1.2 = (prune_to_unique_edges { st1 with
              existing_to_new_edges := intersect_edges st1.existing_to_new_edges,
              new_to_existing_edges := intersect_edges st1.new_to_existing_edges }).2.1 := by
            rw [hp]
          have hru := round_unique _ hwf2
          refine Or.inr ⟨fun hf e n n' h1 h2 => ?_, fun hf e e' n h1 h2 => ?_⟩
          · rw [happ] at h1 h2
            exact hru.1 (by rw [← hfl1.1] at hf; exact hf) e n n' h1 h2
          · rw [happ] at h1 h2
            exact hru.2 (by rw [← hfl1.2] at hf; exact hf) e e' n h1 h2
      · refine Or.inr ⟨fun hf => hu.1 ?_, fun hf => hu.2 ?_⟩
        · rw [hflr.1]; exact hf
        · rw [hflr.2]; exact hf

theorem merge_records_unique {st st' : MState} {log : List EdgeDict} {u : Option Nat}
    (h : merge_records st = .ok (st', log, u)) (hwf : tablesWF st) :
    ∀ d ∈ log,
      (st.existing_to_new_unique = true → ∀ e n n', memDictB d e n = true →
        memDictB d e n' = true → n = n') ∧
      (st.new_to_existing_unique = true → ∀ e e' n, memDictB d e n = true →
        memDictB d e' n = true → e = e') := by
  unfold merge_records at h
  rw [bind_eq_ok'] at h
  obtain ⟨st1, hst1, h⟩ := h
  rw [bind_eq_ok'] at h
  obtain ⟨res1, hres1, h⟩ := h
  rw [bind_eq_ok'] at h
  obtain ⟨res2, hres2, h⟩ := h
  have hlog : log = res2.2 := by
    have := Except.ok.inj h
    exact (congrArg (fun t => t.2.1) this).symm
  have hwf1 : tablesWF st1 := primary_loop_wf st.primary_merge_fields st st1 hst1 hwf
  have hfl1 := primary_loop_ok_fields st.primary_merge_fields st st1 hst1 rfl
  have hwf2 : tablesWF { st1 with
      existing_to_new_edges := intersect_edges st1.existing_to_new_edges,
      new_to_existing_edges := intersect_edges st1.new_to_existing_edges } :=
    intersect_state_wf st1 hwf1
  obtain ⟨b1, hb1, hp⟩ := add_merged_ok hres1
  have hwfr : tablesWF res1.1 := add_merged_ok_wf hres1
  have hflr : res1.1.existing_to_new_unique = st.existing_to_new_unique ∧
      res1.1.new_to_existing_unique = st.new_to_existing_unique := by
    rw [hp]
    exact ⟨hfl1.2.2.1, hfl1.2.2.2⟩
  intro d hd
  rw [hlog] at hd
  have hsec := secondary_loop_unique res1.1.secondary_merge_fields res1.1
    [res1.2] res2 hres2 hwfr d hd
  rcases hsec with hone | hu
  · have hde : d = res1.2 := by simpa using hone
    subst hde
    have happ : res1.2 = (prune_to_unique_edges { st1 with
        existing_to_new_edges := intersect_edges st1.existing_to_new_edges,
        new_to_existing_edges := intersect_edges st1.new_to_existing_edges }).2.1 := by
      rw [hp]
    have hru := round_unique _ hwf2
    refine ⟨fun hf e n n' h1 h2 => ?_, fun hf e e' n h1 h2 => ?_⟩
    · rw [happ] at h1 h2
      exact hru.1 (by rw [hfl1.2.2.1]; exact hf) e n n' h1 h2
    · rw [happ] at h1 h2
      exact hru.2 (by rw [hfl1.2.2.2]; exact hf) e e' n h1 h2
  · refine ⟨fun hf => hu.1 ?_, fun hf => hu.2 ?_⟩
    · rw [hflr.1]; exact hf
    · rw [hflr.2]; exact hf

/-! ## C2 -/

/-- C2: for every merge run (starting, as every `AnnotationMerge` object
does, with empty edge-table lists), when a direction's cardinality flag is
`"one"` every applied match table of the run respects it: with
`existing_to_new_unique` no base position is merged with more than one
incoming position, and with `new_to_existing_unique` no incoming position
is merged under more than one base position — constraint-violating edges
are pruned out of the applied tables instead. -/
theorem C2_applied_respect_uniqueness {st st' : MState} {log : List EdgeDict}
    {u : Option Nat} (h : merge_records st = .ok (st', log, u))
    (hE : st.existing_to_new_edges = []) (hN : st.new_to_existing_edges = []) :
    (st.existing_to_new_unique = true → ∀ d ∈ log, ∀ e n n',
      mem_edgeB d e n = true → mem_edgeB d e n' = true → n = n') ∧
    (st.new_to_existing_unique = true → ∀ d ∈ log, ∀ e e' n,
      mem_edgeB d e n = true → mem_edgeB d e' n = true → e = e') := by
  have hwf : tablesWF st := by
    unfold tablesWF
    rw [hE, hN]
    exact List.Forall₂.nil
  have hm := merge_records_unique h hwf
  exact ⟨fun hf d hd e n n' h1 h2 => (hm d hd).1 hf e n n' h1 h2,
    fun hf d hd e e' n h1 h2 => (hm d hd).2 hf e e' n h1 h2⟩

theorem C2_applied_respect_uniqueness_witness :
    (∀ d ∈ ([[(0, [0]), (1, [1])]] : List EdgeDict), ∀ e n n',
      mem_edgeB d e n = true → mem_edgeB d e n' = true → n = n') ∧
    (∀ d ∈ ([[(0, [0]), (1, [1])]] : List EdgeDict), ∀ e e' n,
      mem_edgeB d e n = true → mem_edgeB d e' n = true → e = e') := by
  have h : merge_records
      { base_records := [.obj [("gene", .str "a")], .obj [("gene", .str "b")]],
        incoming_records := [.obj [("gene", .str "a")], .obj [("gene", .str "b")]],
        pfx := "ann",
        primary_merge_fields := [["gene", "gene"]],
        secondary_merge_fields := [],
        existing_to_new_unique := true,
        new_to_existing_unique := true,
        existing_to_new_edges := [],
        new_to_existing_edges := [] }
      = .ok
      ({ base_records :=
           [.obj [("gene", .str "a"), ("ann", .arr [.obj [("gene", .str "a")]])],
            .obj [("gene", .str "b"), ("ann", .arr [.obj [("gene", .str "b")]])]],
         incoming_records := [],
         pfx := "ann",
         primary_merge_fields := [],
         secondary_merge_fields := [],
         existing_to_new_unique := true,
         new_to_existing_unique := true,
         existing_to_new_edges := [],
         new_to_existing_edges := [] },
       [[(0, [0]), (1, [1])]], none) := by rfl
  have hc := C2_applied_respect_uniqueness h rfl rfl
  exact ⟨hc.1 rfl, hc.2 rfl⟩

/-! ## C10: order of the cardinality pair -/

theorem convert_pair (t1 t2 : String) :
    convert_merge_type_to_bool [t1, t2]
      = .ok [decide (t1 = MERGE_CHOICE_ONE), decide (t2 = MERGE_CHOICE_ONE)] := by
  unfold convert_merge_type_to_bool
  by_cases h1 : t1 = MERGE_CHOICE_ONE <;> by_cases h2 : t2 = MERGE_CHOICE_ONE <;>
    simp [convert_loop, h1, h2]

theorem mkState_flags {base incoming : List PyVal} {pfx : String}
    {minfo : MergeInfo} {st : MState} {t1 t2 : String}
    (ht : minfo.type = some [t1, t2])
    (h : mkState base incoming pfx minfo = .ok st) :
    st.new_to_existing_unique = decide (t1 = MERGE_CHOICE_ONE) ∧
    st.existing_to_new_unique = decide (t2 = MERGE_CHOICE_ONE) := by
  unfold mkState at h
  rw [bind_eq_ok'] at h
  obtain ⟨parsed, hp, h⟩ := h
  unfold parse_merge_info at hp
  rw [bind_eq_ok'] at hp
  obtain ⟨bools, hb, hp⟩ := hp
  rw [ht] at hb
  rw [show (Option.getD (some [t1, t2]) [MERGE_CHOICE_MANY, MERGE_CHOICE_MANY])
      = [t1, t2] from rfl] at hb
  rw [convert_pair t1 t2] at hb
  rw [← Except.ok.inj hb] at hp
  have hpar : (minfo.primary_fields.getD [], minfo.secondary_fields.getD [],
      decide (t2 = MERGE_CHOICE_ONE), decide (t1 = MERGE_CHOICE_ONE)) = parsed :=
    Except.ok.inj hp
  rw [← hpar] at h
  rw [← Except.ok.inj h]
  exact ⟨rfl, rfl⟩

/-- C10: in the cardinality pair of the merge configuration the FIRST
element governs the incoming-to-base direction and the SECOND the
base-to-incoming direction: `type = [t1, t2]` sets
`new_to_existing_unique = (t1 = "one")` and
`existing_to_new_unique = (t2 = "one")`, and accordingly a `"one"` in the
first slot forbids applying one incoming position under two base positions
while a `"one"` in the second slot forbids applying two incoming positions
to one base position, in every run from this configuration. -/
theorem C10_cardinality_pair_order {base incoming : List PyVal} {pfx : String}
    {minfo : MergeInfo} {t1 t2 : String} {st : MState}
    (ht : minfo.type = some [t1, t2])
    (hmk : mkState base incoming pfx minfo = .ok st) :
    (st.new_to_existing_unique = decide (t1 = MERGE_CHOICE_ONE) ∧
     st.existing_to_new_unique = decide (t2 = MERGE_CHOICE_ONE)) ∧
    ∀ st' log u, merge_records st = .ok (st', log, u) →
      (t1 = MERGE_CHOICE_ONE → ∀ d ∈ log, ∀ e e' n, mem_edgeB d e n = true →
        mem_edgeB d e' n = true → e = e') ∧
      (t2 = MERGE_CHOICE_ONE → ∀ d ∈ log, ∀ e n n', mem_edgeB d e n = true →
        mem_edgeB d e n' = true → n = n') := by
  have hfl := mkState_flags ht hmk
  have hmo := mkState_ok hmk
  refine ⟨hfl, fun st' log u hrun => ?_⟩
  have hwf : tablesWF st := by
    unfold tablesWF
    rw [hmo.2.2.2.2.2.1, hmo.2.2.2.2.2.2]
    exact List.Forall₂.nil
  have hm := merge_records_unique hrun hwf
  constructor
  · intro h1 d hd e e' n ha hb
    exact (hm d hd).2 (by rw [hfl.1]; simp [h1]) e e' n ha hb
  · intro h2 d hd e n n' ha hb
    exact (hm d hd).1 (by rw [hfl.2]; simp [h2]) e n n' ha hb

theorem C10_cardinality_pair_order_witness :
    ((true : Bool) = decide ("one" = MERGE_CHOICE_ONE) ∧
     (false : Bool) = decide ("many" = MERGE_CHOICE_ONE)) ∧
    ∀ st' log u,
      merge_records
        { base_records := [], incoming_records := [], pfx := "p",
          primary_merge_fields := [["g", "g"]], secondary_merge_fields := [],
          existing_to_new_unique := false, new_to_existing_unique := true,
          existing_to_new_edges := [], new_to_existing_edges := [] }
        = .ok (st', log, u) →
      ("one" = MERGE_CHOICE_ONE → ∀ d ∈ log, ∀ e e' n, mem_edgeB d e n = true →
        mem_edgeB d e' n = true → e = e') ∧
      ("many" = MERGE_CHOICE_ONE → ∀ d ∈ log, ∀ e n n', mem_edgeB d e n = true →
        mem_edgeB d e n' = true → n = n') :=
  C10_cardinality_pair_order
    (show ({ primary_fields := some [["g", "g"]], secondary_fields := none,
             type := some ["one", "many"] } : MergeInfo).type
        = some ["one", "many"] from rfl)
    rfl

/-! ## C1 machinery: the joined tables of one primary pair -/

theorem mkState_flags_none {base incoming : List PyVal} {pfx : String}
    {minfo : MergeInfo} {st : MState} (ht : minfo.type = none)
    (h : mkState base incoming pfx minfo = .ok st) :
    st.existing_to_new_unique = false ∧ st.new_to_existing_unique = false := by
  unfold mkState at h
  rw [bind_eq_ok'] at h
  obtain ⟨parsed, hp, h⟩ := h
  unfold parse_merge_info at hp
  rw [bind_eq_ok'] at hp
  obtain ⟨bools, hb, hp⟩ := hp
  rw [ht] at hb
  rw [show (Option.getD (none : Option (List String))
      [MERGE_CHOICE_MANY, MERGE_CHOICE_MANY])
      = [MERGE_CHOICE_MANY, MERGE_CHOICE_MANY] from rfl] at hb
  rw [convert_pair MERGE_CHOICE_MANY MERGE_CHOICE_MANY] at hb
  rw [show decide (MERGE_CHOICE_MANY = MERGE_CHOICE_ONE) = false from rfl] at hb
  rw [← Except.ok.inj hb] at hp
  have hpar : (minfo.primary_fields.getD [], minfo.secondary_fields.getD [],
      false, false) = parsed := Except.ok.inj hp
  rw [← hpar] at h
  rw [← Except.ok.inj h]
  exact ⟨rfl, rfl⟩

theorem ptu_many_many (st : MState) (h1 : st.existing_to_new_unique = false)
    (h2 : st.new_to_existing_unique = false) :
    (prune_to_unique_edges st).2.1 = st.existing_to_new_edges.headD [] := by
  simp [prune_to_unique_edges, h1, h2, prune_edges]

theorem match_records_mem_iff {evm nvm : ValDict} (hnd : keysNodup evm)
    (e n : Nat) :
    memDictB (match_records evm nvm).1 e n = true ↔
      ∃ v, memDictB evm v e = true ∧ memDictB nvm v n = true := by
  rw [match_records_mem]
  constructor
  · rintro ⟨v, s, t, hvs, hgt, _, hes, hnt⟩
    refine ⟨v, ?_, ?_⟩
    · have hg := mem_dictGet hnd hvs
      simp [memDictB, hg, contains_iff, hes]
    · simp [memDictB, hgt, contains_iff, hnt]
  · rintro ⟨v, h1, h2⟩
    cases hg1 : dictGet evm v with
    | none =>
      simp only [memDictB, hg1] at h1
      exact Bool.noConfusion h1
    | some s =>
      cases hg2 : dictGet nvm v with
      | none =>
        simp only [memDictB, hg2] at h2
        exact Bool.noConfusion h2
      | some t =>
        simp only [memDictB, hg1] at h1
        simp only [memDictB, hg2] at h2
        refine ⟨v, s, t, dictGet_mem hg1, hg2, ?_, contains_iff.mp h1,
          contains_iff.mp h2⟩
        intro hc
        subst hc
        simp at h2

theorem joined_mem {base incoming : List PyVal} {eI nI : Option (List Nat)}
    {pair : List String} {T : EdgeDict × EdgeDict} {f1 f2 : String}
    (hk : get_merge_fields pair = .ok (f1, f2))
    (h : joined_tables base incoming eI nI pair = .ok T) (e n : Nat) :
    memDictB T.1 e n = true ↔
      f1.isEmpty = false ∧ f2.isEmpty = false ∧
      e ∈ eff_indices base eI ∧ n ∈ eff_indices incoming nI ∧
      ∃ v, v ∈ leafValues (base.getD e (.obj [])) f1 ∧
        v ∈ leafValues (incoming.getD n (.obj [])) f2 := by
  unfold joined_tables at h
  rw [bind_eq_ok'] at h
  obtain ⟨keys, hk0, h⟩ := h
  have hke : keys = (f1, f2) := by
    rw [hk0] at hk
    exact Except.ok.inj hk
  subst hke
  rw [bind_eq_ok'] at h
  obtain ⟨evm, hevm, h⟩ := h
  rw [bind_eq_ok'] at h
  obtain ⟨nvm, hnvm, h⟩ := h
  rw [← Except.ok.inj h]
  rw [match_records_mem_iff (mvr_ok_wf hevm).1 e n]
  constructor
  · rintro ⟨v, h1, h2⟩
    rw [mvr_ok_mem hevm v e] at h1
    rw [mvr_ok_mem hnvm v n] at h2
    exact ⟨h1.1, h2.1, h1.2.1, h2.2.1, v, h1.2.2, h2.2.2⟩
  · rintro ⟨hf1, hf2, he, hn, v, hv1, hv2⟩
    refine ⟨v, ?_, ?_⟩
    · rw [mvr_ok_mem hevm v e]
      exact ⟨hf1, he, hv1⟩
    · rw [mvr_ok_mem hnvm v n]
      exact ⟨hf2, hn, hv2⟩

theorem joined_wf {base incoming : List PyVal} {eI nI : Option (List Nat)}
    {pair : List String} {T : EdgeDict × EdgeDict}
    (h : joined_tables base incoming eI nI pair = .ok T) :
    keysNodup T.1 ∧ isMirror T.1 T.2 := by
  unfold joined_tables at h
  rw [bind_eq_ok'] at h
  obtain ⟨keys, _, h⟩ := h
  rw [bind_eq_ok'] at h
  obtain ⟨evm, _, h⟩ := h
  rw [bind_eq_ok'] at h
  obtain ⟨nvm, _, h⟩ := h
  rw [← Except.ok.inj h]
  exact ⟨(match_records_wf evm nvm).1, match_records_mirror evm nvm⟩

theorem join_records_ok_tables {st st1 : MState} {pair : List String}
    (h : join_records st pair = .ok st1) :
    ∃ T : EdgeDict × EdgeDict,
      joined_tables st.base_records st.incoming_records
        (match st.existing_to_new_edges with
          | e0 :: _ => some (e0.map (fun p => p.1))
          | [] => none)
        (match st.existing_to_new_edges with
          | _ :: _ => some ((st.new_to_existing_edges.headD []).map (fun p => p.1))
          | [] => none)
        pair = .ok T ∧
      st1 = { st with
        existing_to_new_edges := st.existing_to_new_edges ++ [T.1],
        new_to_existing_edges := st.new_to_existing_edges ++ [T.2] } := by
  unfold join_records at h
  rw [bind_eq_ok'] at h
  obtain ⟨keys, hk, h⟩ := h
  rw [bind_eq_ok'] at h
  obtain ⟨evm, hevm, h⟩ := h
  rw [bind_eq_ok'] at h
  obtain ⟨nvm, hnvm, h⟩ := h
  refine ⟨match_records evm nvm, ?_, (Except.ok.inj h).symm⟩
  unfold joined_tables
  rw [hk]
  simp only [Bind.bind, Except.bind]
  rw [hevm]
  rw [hnvm]

/-! ## C1 machinery: the primary loop builds one joined pair per field pair -/

theorem primary_loop_steady : ∀ (fields : List (List String)) (st st' : MState)
    (E0 N0 : EdgeDict) (Es Ns : List EdgeDict),
    st.existing_to_new_edges = E0 :: Es → st.new_to_existing_edges = N0 :: Ns →
    primary_loop st fields = .ok st' →
    ∃ Ts : List (EdgeDict × EdgeDict),
      st'.existing_to_new_edges = st.existing_to_new_edges ++ Ts.map Prod.fst ∧
      st'.new_to_existing_edges = st.new_to_existing_edges ++ Ts.map Prod.snd ∧
      st'.base_records = st.base_records ∧
      st'.incoming_records = st.incoming_records ∧
      List.Forall₂ (fun pair T =>
        joined_tables st.base_records st.incoming_records
          (some (E0.map (fun p => p.1))) (some (N0.map (fun p => p.1))) pair
          = .ok T)
        fields Ts
  | [], st, st', E0, N0, Es, Ns, hE, hN, h => by
    simp only [primary_loop] at h
    rw [← Except.ok.inj h]
    exact ⟨[], by simp, by simp, rfl, rfl, List.Forall₂.nil⟩
  | pair :: rest, st, st', E0, N0, Es, Ns, hE, hN, h => by
    simp only [primary_loop] at h
    rw [bind_eq_ok'] at h
    obtain ⟨st1, hj, h⟩ := h
    obtain ⟨T, hT, hst1⟩ := join_records_ok_tables hj
    have hT2 : joined_tables st.base_records st.incoming_records
        (some (E0.map (fun p => p.1))) (some (N0.map (fun p => p.1))) pair
        = .ok T := by
      have hT1 : joined_tables st.base_records st.incoming_records
          (match st.existing_to_new_edges with
            | e0 :: _ => some (e0.map (fun p => p.1))
            | [] => none)
          (match st.existing_to_new_edges with
            | _ :: _ => some ((st.new_to_existing_edges.headD []).map (fun p => p.1))
            | [] => none)
          pair = .ok T := hT
      rw [hE, hN] at hT1
      exact hT1
    have hE1 : st1.existing_to_new_edges = E0 :: (Es ++ [T.1]) := by
      rw [hst1]
      show st.existing_to_new_edges ++ [T.1] = E0 :: (Es ++ [T.1])
      rw [hE]
      simp
    have hN1 : st1.new_to_existing_edges = N0 :: (Ns ++ [T.2]) := by
      rw [hst1]
      show st.new_to_existing_edges ++ [T.2] = N0 :: (Ns ++ [T.2])
      rw [hN]
      simp
    have hb1 : st1.base_records = st.base_records := by rw [hst1]
    have hi1 : st1.incoming_records = st.incoming_records := by rw [hst1]
    have hE1' : st1.existing_to_new_edges = st.existing_to_new_edges ++ [T.1] := by
      rw [hst1]
    have hN1' : st1.new_to_existing_edges = st.new_to_existing_edges ++ [T.2] := by
      rw [hst1]
    obtain ⟨Ts, he', hn', hb', hi', hf'⟩ :=
      primary_loop_steady rest st1 st' E0 N0 (Es ++ [T.1]) (Ns ++ [T.2]) hE1 hN1 h
    rw [hb1] at hf'
    rw [hi1] at hf'
    refine ⟨T :: Ts, ?_, ?_, hb'.trans hb1, hi'.trans hi1,
      List.Forall₂.cons hT2 hf'⟩
    · rw [he', hE1']
      simp
    · rw [hn', hN1']
      simp

theorem primary_loop_from_empty {p0 : List String} {rest : List (List String)}
    {st st' : MState}
    (hE : st.existing_to_new_edges = []) (hN : st.new_to_existing_edges = [])
    (h : primary_loop st (p0 :: rest) = .ok st') :
    ∃ (T0 : EdgeDict × EdgeDict) (Ts : List (EdgeDict × EdgeDict)),
      joined_tables st.base_records st.incoming_records none none p0 = .ok T0 ∧
      List.Forall₂ (fun pair T =>
        joined_tables st.base_records st.incoming_records
          (some (T0.1.map (fun p => p.1))) (some (T0.2.map (fun p => p.1))) pair
          = .ok T)
        rest Ts ∧
      st'.existing_to_new_edges = T0.1 :: Ts.map Prod.fst ∧
      st'.new_to_existing_edges = T0.2 :: Ts.map Prod.snd ∧
      st'.base_records = st.base_records ∧
      st'.incoming_records = st.incoming_records := by
  simp only [primary_loop] at h
  rw [bind_eq_ok'] at h
  obtain ⟨st1, hj, h⟩ := h
  obtain ⟨T0, hT, hst1⟩ := join_records_ok_tables hj
  have hT0 : joined_tables st.base_records st.incoming_records none none p0
      = .ok T0 := by
    have hT1 : joined_tables st.base_records st.incoming_records
        (match st.existing_to_new_edges with
          | e0 :: _ => some (e0.map (fun p => p.1))
          | [] => none)
        (match st.existing_to_new_edges with
          | _ :: _ => some ((st.new_to_existing_edges.headD []).map (fun p => p.1))
          | [] => none)
        p0 = .ok T0 := hT
    rw [hE] at hT1
    exact hT1
  have hE1 : st1.existing_to_new_edges = T0.1 :: [] := by
    rw [hst1]
    show st.existing_to_new_edges ++ [T0.1] = T0.1 :: []
    rw [hE]
    rfl
  have hN1 : st1.new_to_existing_edges = T0.2 :: [] := by
    rw [hst1]
    show st.new_to_existing_edges ++ [T0.2] = T0.2 :: []
    rw [hN]
    rfl
  have hb1 : st1.base_records = st.base_records := by rw [hst1]
  have hi1 : st1.incoming_records = st.incoming_records := by rw [hst1]
  obtain ⟨Ts, he', hn', hb', hi', hf'⟩ :=
    primary_loop_steady rest st1 st' T0.1 T0.2 [] [] hE1 hN1 h
  rw [hb1] at hf'
  rw [hi1] at hf'
  refine ⟨T0, Ts, hT0, hf', ?_, ?_, hb'.trans hb1, hi'.trans hi1⟩
  · rw [he', hE1]
    simp
  · rw [hn', hN1]
    simp

theorem joined_keys {base incoming : List PyVal} {eI nI : Option (List Nat)}
    {pair : List String} {T : EdgeDict × EdgeDict}
    (h : joined_tables base incoming eI nI pair = .ok T) :
    ∃ f1 f2, get_merge_fields pair = .ok (f1, f2) := by
  unfold joined_tables at h
  rw [bind_eq_ok'] at h
  obtain ⟨keys, hk0, _⟩ := h
  exact ⟨keys.1, keys.2, hk0⟩

theorem forall2_tables_mem {base incoming : List PyVal} {eI nI : Option (List Nat)} :
    ∀ {fields : List (List String)} {Ts : List (EdgeDict × EdgeDict)},
    List.Forall₂ (fun pair T => joined_tables base incoming eI nI pair = .ok T)
      fields Ts →
    ∀ e n, ((∀ d ∈ Ts.map Prod.fst, memDictB d e n = true) ↔
      (∀ pair ∈ fields, ∀ f1 f2, get_merge_fields pair = .ok (f1, f2) →
        (f1.isEmpty = false ∧ f2.isEmpty = false ∧
         e ∈ eff_indices base eI ∧ n ∈ eff_indices incoming nI ∧
         ∃ v, v ∈ leafValues (base.getD e (.obj [])) f1 ∧
           v ∈ leafValues (incoming.getD n (.obj [])) f2))) := by
  intro fields Ts h
  induction h with
  | nil => simp
  | cons hr hrest ih =>
    intro e n
    simp only [List.map_cons, List.mem_cons]
    constructor
    · intro hall pair hp f1 f2 hk
      rcases hp with rfl | hp
      · rw [← joined_mem hk hr e n]
        exact hall _ (Or.inl rfl)
      · exact ((ih e n).mp (fun d hd => hall d (Or.inr hd))) pair hp f1 f2 hk
    · intro hall d hd
      rcases hd with rfl | hd
      · obtain ⟨f1, f2, hk⟩ := joined_keys hr
        rw [joined_mem hk hr e n]
        exact hall _ (Or.inl rfl) f1 f2 hk
      · exact ((ih e n).mpr (fun pair hp f1 f2 hk =>
          hall pair (Or.inr hp) f1 f2 hk)) d hd

/-! ## C1 -/

theorem mem_edgeB_eq (d : EdgeDict) (e n : Nat) :
    mem_edgeB d e n = memDictB d e n := rfl

theorem mem_eff_of_mem {ann : List PyVal} {l : List Nat} {x : Nat} (hx : x ∈ l) :
    x ∈ eff_indices ann (some l) := by
  cases l with
  | nil => exact absurd hx (by simp)
  | cons k ks => exact hx

/-- C1: for a merge call with `("many", "many")` cardinality and no
secondary field pairs (well-formed primary pairs, successful run), a
base-position/incoming-position pair is merged if and only if the two
positions are in range and, for EVERY primary field pair, the leaf values
of the base record on the base-side path and of the incoming record on the
incoming-side path share at least one value. -/
theorem C1_primary_and_semantics {base incoming : List PyVal} {pfx : String}
    {pairs : List (List String)} {out : MState × List EdgeDict × Option Nat}
    (hne : pairs ≠ [])
    (hwfp : ∀ pair ∈ pairs, ∃ f1 f2, get_merge_fields pair = .ok (f1, f2) ∧
      f1.isEmpty = false ∧ f2.isEmpty = false)
    (h : merge_call base incoming pfx
      { primary_fields := some pairs, secondary_fields := none, type := none }
      = .ok out) :
    ∀ e n, pairAppliedB out.2.1 e n = true ↔
      (e < base.length ∧ n < incoming.length ∧
       ∀ pair ∈ pairs, ∀ f1 f2, get_merge_fields pair = .ok (f1, f2) →
         ∃ v, v ∈ leafValues (base.getD e (.obj [])) f1 ∧
           v ∈ leafValues (incoming.getD n (.obj [])) f2) := by
  unfold merge_call at h
  rw [bind_eq_ok'] at h
  obtain ⟨st0, hmk, h⟩ := h
  have hmo := mkState_ok hmk
  have hmfl := mkState_flags_none rfl hmk
  obtain ⟨p0, rest, rfl⟩ : ∃ p0 rest, pairs = p0 :: rest := by
    cases pairs with
    | nil => exact absurd rfl hne
    | cons a l => exact ⟨a, l, rfl⟩
  have hP : st0.primary_merge_fields = p0 :: rest := hmo.2.2.2.1
  have hS : st0.secondary_merge_fields = [] := hmo.2.2.2.2.1
  obtain ⟨st1, st2, res, res2, hprim, hst2, hadd, hsec, hout1, hlog, hrep⟩ :=
    merge_records_ok_parts h
  rw [hP] at hprim
  have hplf := primary_loop_ok_fields (p0 :: rest) st0 st1 hprim hP
  obtain ⟨T0, Ts, hT0, hTs, hE1, hN1, hb1, hi1⟩ :=
    primary_loop_from_empty hmo.2.2.2.2.2.1 hmo.2.2.2.2.2.2 hprim
  rw [hmo.1, hmo.2.1] at hT0
  rw [hmo.1, hmo.2.1] at hTs
  obtain ⟨b1, happly, hres⟩ := add_merged_ok hadd
  have hres2 : res.2 = (prune_to_unique_edges st2).2.1 := by rw [hres]
  have hfl2e : st2.existing_to_new_unique = false := by
    rw [hst2]
    show st1.existing_to_new_unique = false
    rw [hplf.2.2.1]
    exact hmfl.1
  have hfl2n : st2.new_to_existing_unique = false := by
    rw [hst2]
    show st1.new_to_existing_unique = false
    rw [hplf.2.2.2]
    exact hmfl.2
  have happlied : res.2 = intersect_fold T0.1 (Ts.map Prod.fst) := by
    rw [hres2, ptu_many_many st2 hfl2e hfl2n, hst2]
    show (intersect_edges st1.existing_to_new_edges).headD [] = _
    rw [hE1]
    rfl
  have hsec0 : res.1.secondary_merge_fields = [] := by
    rw [hres]
    show st2.secondary_merge_fields = []
    rw [hst2]
    show st1.secondary_merge_fields = []
    rw [hplf.2.1]
    exact hS
  rw [hsec0] at hsec
  have hres2eq : res2 = (res.1, [res.2]) := by
    simp only [secondary_loop] at hsec
    exact (Except.ok.inj hsec).symm
  have hlogEq : out.2.1 = [res.2] := by
    rw [hlog, hres2eq]
  obtain ⟨f01, f02, hk0, hne1, hne2⟩ := hwfp p0 (List.mem_cons_self _ _)
  intro e n
  rw [hlogEq]
  rw [show pairAppliedB [res.2] e n = mem_edgeB res.2 e n from by
    simp [pairAppliedB]]
  rw [mem_edgeB_eq, happlied]
  rw [memDict_intersect_fold (Ts.map Prod.fst) T0.1 (joined_wf hT0).1 e n]
  rw [forall2_tables_mem hTs e n]
  rw [joined_mem hk0 hT0 e n]
  rw [show eff_indices base none = List.range base.length from rfl]
  rw [show eff_indices incoming none = List.range incoming.length from rfl]
  constructor
  · rintro ⟨⟨hf1, hf2, heR, hnR, hv0⟩, hrest⟩
    refine ⟨List.mem_range.mp heR, List.mem_range.mp hnR, ?_⟩
    intro pair hp f1 f2 hk
    rcases List.mem_cons.mp hp with rfl | hp
    · obtain ⟨hq1, hq2⟩ := Prod.mk.inj (Except.ok.inj (hk0.symm.trans hk))
      subst hq1
      subst hq2
      exact hv0
    · exact (hrest pair hp f1 f2 hk).2.2.2.2
  · rintro ⟨he, hn, hall⟩
    have hhead : f01.isEmpty = false ∧ f02.isEmpty = false ∧
        e ∈ List.range base.length ∧ n ∈ List.range incoming.length ∧
        ∃ v, v ∈ leafValues (base.getD e (.obj [])) f01 ∧
          v ∈ leafValues (incoming.getD n (.obj [])) f02 :=
      ⟨hne1, hne2, List.mem_range.mpr he, List.mem_range.mpr hn,
        hall p0 (List.mem_cons_self _ _) f01 f02 hk0⟩
    have hfold1 : memDictB T0.1 e n = true := by
      rw [joined_mem hk0 hT0 e n]
      exact hhead
    have hkE : e ∈ T0.1.map (fun p => p.1) := by
      cases hg : dictGet T0.1 e with
      | none =>
        simp only [memDictB, hg] at hfold1
        exact Bool.noConfusion hfold1
      | some s => exact mem_keys_of_dictGet hg
    have hfold2 : memDictB T0.2 n e = true := by
      rw [← (joined_wf hT0).2 e n]
      exact hfold1
    have hkN : n ∈ T0.2.map (fun p => p.1) := by
      cases hg : dictGet T0.2 n with
      | none =>
        simp only [memDictB, hg] at hfold2
        exact Bool.noConfusion hfold2
      | some s => exact mem_keys_of_dictGet hg
    refine ⟨hhead, ?_⟩
    intro pair hp f1 f2 hk
    obtain ⟨g1, g2, hk', hg1, hg2⟩ := hwfp pair (List.mem_cons_of_mem _ hp)
    obtain ⟨hq1, hq2⟩ := Prod.mk.inj (Except.ok.inj (hk'.symm.trans hk))
    subst hq1
    subst hq2
    exact ⟨hg1, hg2, mem_eff_of_mem hkE, mem_eff_of_mem hkN,
      hall pair (List.mem_cons_of_mem _ hp) _ _ hk⟩

theorem C1_primary_and_semantics_witness :
    pairAppliedB [[(0, [0])]] 0 0 = true ↔
      (0 < [PyVal.obj [("g", .str "a")]].length ∧
       0 < [PyVal.obj [("g", .str "a")]].length ∧
       ∀ pair ∈ [["g", "g"]], ∀ f1 f2, get_merge_fields pair = .ok (f1, f2) →
         ∃ v, v ∈ leafValues ([PyVal.obj [("g", .str "a")]].getD 0 (.obj [])) f1 ∧
           v ∈ leafValues ([PyVal.obj [("g", .str "a")]].getD 0 (.obj [])) f2) :=
  C1_primary_and_semantics (by simp)
    (fun pair hp => by
      have hpe : pair = ["g", "g"] := by simpa using hp
      subst hpe
      exact ⟨"g", "g", rfl, rfl, rfl⟩)
    (show merge_call [PyVal.obj [("g", .str "a")]] [PyVal.obj [("g", .str "a")]] "p"
        { primary_fields := some [["g", "g"]], secondary_fields := none,
          type := none }
        = .ok
        ({ base_records :=
             [.obj [("g", .str "a"), ("p", .arr [.obj [("g", .str "a")]])]],
           incoming_records := [],
           pfx := "p",
           primary_merge_fields := [],
           secondary_merge_fields := [],
           existing_to_new_unique := false,
           new_to_existing_unique := false,
           existing_to_new_edges := [],
           new_to_existing_edges := [] },
         [[(0, [0])]], none) from rfl)
    0 0
